import Mathlib

/-!
# go-logger: the CSV-backed record store of `main.go`

A shallow embedding of the storage engine of `main.go` (`Logger` and the two
request handlers that write to it) together with the parts of the Go standard
library the engine is built on:

* `encoding/csv` with the default `Reader` and `Writer` settings (comma `,`,
  no comment character, `FieldsPerRecord = 0`, `LazyQuotes = false`,
  `TrimLeadingSpace = false`, `UseCRLF = false`), on the characters of the file;
* `strconv.Atoi` and `strconv.Itoa` for the 64-bit `int`;
* `time.Time` as an instant, `Time.After`, and the two directions of the
  `time.RFC3339` text format, which every operation takes as a parameter
  (`TimeLib`).

The file at the store path is a value of type `Disk`: `none` when no file
exists, `some content` otherwise, the content being the characters of the file
(a Go string is taken to be valid UTF-8).  A missing file is the one failure of
the file system that is modelled.  What the program reads from its
surroundings is an argument of the operation that reads it: the clock
(`time.Now()`) and the order in which a `range` loop visits a map
(`RangeOrder`).  The `int` is the 64-bit one and wraps around (`wrapInt`); a
slice expression out of bounds is the outcome `Result.panic`.  A method of
`Logger` holds the lock of the store from its first read to its last write, and
is one atomic step on the disk.  A request handler that calls two methods takes
the lock twice, and another request may write the file between the two calls:
the handler takes the file as each of its calls finds it as an argument.

The definitions come first, in the order of `main.go`; the theorems follow,
the lemmas on the library first and then the claims `C1` to `C11`.
-/

namespace GoLogger

/-! ## encoding/csv -/

/-- The errors of `csv.Reader`. -/
inductive CsvError where
  | bareQuote
  | quote
  | fieldCount
  | eof
  deriving DecidableEq, Repr

/-- What `Reader.readLine` does to the line ends of the input: a carriage
return directly before a newline is removed, and so is a carriage return that
is the last character of the input. -/
def normalizeLines : List Char → List Char
  | [] => []
  | c :: rest =>
    if c = '\r' ∧ (rest = [] ∨ rest.head? = some '\n') then normalizeLines rest
    else c :: normalizeLines rest

/-- Where `Reader.readRecord` stands inside a record. -/
inductive Mode where
  | fieldStart
  | unquoted
  | quoted
  | quoteSeen
  deriving DecidableEq, Repr

/-- The state of a `csv.Reader` while it consumes its input: the characters of
the field being read, the fields of the record being read, the records read so
far, and the error that stopped it. -/
structure Reader where
  mode : Mode
  cur : List Char
  fields : List String
  records : List (List String)
  err : Option CsvError
  deriving DecidableEq, Repr

/-- A fresh `csv.NewReader`. -/
def Reader.init : Reader :=
  { mode := Mode.fieldStart, cur := [], fields := [], records := [], err := none }

/-- The reader stops with an error. -/
def Reader.fail (s : Reader) (e : CsvError) : Reader :=
  { s with err := some e }

/-- One more character of the field being read. -/
def Reader.push (s : Reader) (m : Mode) (c : Char) : Reader :=
  { s with mode := m, cur := s.cur ++ [c] }

/-- A comma ends the field being read. -/
def Reader.endField (s : Reader) : Reader :=
  { s with mode := Mode.fieldStart, cur := [], fields := s.fields ++ [String.mk s.cur] }

/-- The end of the line ends the record being read.  With `FieldsPerRecord = 0`
the first record fixes the number of fields of every later record. -/
def Reader.endRecord (s : Reader) : Reader :=
  let record := s.fields ++ [String.mk s.cur]
  match s.records with
  | [] => { mode := Mode.fieldStart, cur := [], fields := [], records := [record], err := none }
  | first :: _ =>
    if record.length = first.length then
      { mode := Mode.fieldStart, cur := [], fields := [], records := s.records ++ [record],
        err := none }
    else s.fail CsvError.fieldCount

/-- The reader consumes one character of the normalised input, as the loop
`parseField` of `Reader.readRecord` does.  At the start of a field a quote opens
a quoted field; a line that is empty is skipped.  In a field without quotes a
quote is the error `ErrBareQuote`.  In a quoted field every character but the
quote belongs to the field, the newline too; after a quote, a second quote
stands for one quote of the field, a comma ends the field, the end of the line
ends the record, and anything else is the error `ErrQuote`.  After an error
nothing more is read. -/
def Reader.step (s : Reader) (c : Char) : Reader :=
  if s.err.isSome then s
  else
    match s.mode with
    | Mode.fieldStart =>
      if c = '"' then { s with mode := Mode.quoted }
      else if c = ',' then s.endField
      else if c = '\n' then (if s.fields = [] then s else s.endRecord)
      else s.push Mode.unquoted c
    | Mode.unquoted =>
      if c = '"' then s.fail CsvError.bareQuote
      else if c = ',' then s.endField
      else if c = '\n' then s.endRecord
      else s.push Mode.unquoted c
    | Mode.quoted =>
      if c = '"' then { s with mode := Mode.quoteSeen }
      else s.push Mode.quoted c
    | Mode.quoteSeen =>
      if c = '"' then s.push Mode.quoted c
      else if c = ',' then s.endField
      else if c = '\n' then s.endRecord
      else s.fail CsvError.quote

/-- The reader reaches the end of the input: a last line without a newline is a
record, and a quoted field that is still open is the error `ErrQuote`. -/
def Reader.finish (s : Reader) : Reader :=
  if s.err.isSome then s
  else
    match s.mode with
    | Mode.fieldStart => if s.fields = [] then s else s.endRecord
    | Mode.unquoted => s.endRecord
    | Mode.quoted => s.fail CsvError.quote
    | Mode.quoteSeen => s.endRecord

/-- The reader after the whole input. -/
def Reader.run (input : List Char) : Reader :=
  ((normalizeLines input).foldl Reader.step Reader.init).finish

/-- `csv.Reader.ReadAll`: every record of the input, or the first error. -/
def csvReadAll (input : List Char) : Except CsvError (List (List String)) :=
  let s := Reader.run input
  match s.err with
  | some e => Except.error e
  | none => Except.ok s.records

/-- `csv.Reader.Read` on a fresh reader: the first record of the input, or the
error met before it was complete (`eof` when the input holds no record). -/
def csvRead (input : List Char) : Except CsvError (List String) :=
  let s := Reader.run input
  match s.records with
  | first :: _ => Except.ok first
  | [] => Except.error (s.err.getD CsvError.eof)

/-- `unicode.IsSpace`. -/
def isSpace (c : Char) : Bool :=
  c = '\t' || c = '\n' || c.toNat = 0x0B || c.toNat = 0x0C || c = '\r' || c = ' '
    || c.toNat = 0x85 || c.toNat = 0xA0 || c.toNat = 0x1680
    || (0x2000 ≤ c.toNat && c.toNat ≤ 0x200A)
    || c.toNat = 0x2028 || c.toNat = 0x2029 || c.toNat = 0x202F || c.toNat = 0x205F
    || c.toNat = 0x3000

/-- `csv.Writer.fieldNeedsQuotes`. -/
def fieldNeedsQuotes (field : String) : Bool :=
  match field.data with
  | [] => false
  | c :: rest =>
    if field.data = ['\\', '.'] then true
    else if (c :: rest).any (fun d => d = '\n' || d = '\r' || d = '"' || d = ',') then true
    else isSpace c

/-- The inside of a quoted field: every quote is doubled. -/
def escapeQuotes : List Char → List Char
  | [] => []
  | c :: rest => if c = '"' then '"' :: '"' :: escapeQuotes rest else c :: escapeQuotes rest

/-- One field as `csv.Writer.Write` writes it. -/
def writeField (field : String) : List Char :=
  if fieldNeedsQuotes field then '"' :: (escapeQuotes field.data ++ ['"']) else field.data

/-- The fields of a record with a comma between them. -/
def writeFields : List String → List Char
  | [] => []
  | [f] => writeField f
  | f :: g :: rest => writeField f ++ ',' :: writeFields (g :: rest)

/-- `csv.Writer.Write` followed by `Flush`: the characters added to the file. -/
def csvWrite (record : List String) : List Char :=
  writeFields record ++ ['\n']

/-! ### What is read back after a write -/

/-- What `csv.Reader` makes of the characters of a quoted field: a carriage return
directly before a newline is removed. -/
def crlf : List Char → List Char
  | [] => []
  | c :: rest =>
    if c = '\r' ∧ rest.head? = some '\n' then crlf rest else c :: crlf rest

/-- What a string is read back as after it was written as a field. -/
def readBack (s : String) : String := String.mk (crlf s.data)

/-! ## strconv -/

/-- The largest `int` of a 64-bit platform. -/
def maxInt : Int := 9223372036854775807

/-- The smallest `int` of a 64-bit platform. -/
def minInt : Int := -9223372036854775808

/-- The largest `uint64`. -/
def maxUint64 : Nat := 18446744073709551615

/-- The value an `int` computation yields after two's-complement wrap-around. -/
def wrapInt (x : Int) : Int :=
  (x + 9223372036854775808) % 18446744073709551616 - 9223372036854775808

/-- A decimal digit. -/
def isDigit (c : Char) : Bool := 48 ≤ c.toNat && c.toNat ≤ 57

/-- The value of a decimal digit. -/
def digitVal (c : Char) : Nat := c.toNat - 48

/-- The character of a decimal digit. -/
def digitChar (d : Nat) : Char := Char.ofNat (48 + d)

/-- The sign character `strconv` strips from the front of a number. -/
def isSign (c : Char) : Bool := c = '-' || c = '+'

/-- The outcome of the digit loop of `strconv.ParseUint`. -/
inductive UintResult where
  | value (n : Nat)
  | syntaxError
  | rangeError
  deriving DecidableEq, Repr

/-- The digit loop of `strconv.ParseUint(s, 10, 64)`: it stops at the first
character that is no digit, and at the first digit that takes the number past
`maxUint64`, whichever comes first. -/
def parseUintLoop : List Char → Nat → UintResult
  | [], n => UintResult.value n
  | c :: rest, n =>
    if !isDigit c then UintResult.syntaxError
    else if n ≥ maxUint64 / 10 + 1 then UintResult.rangeError
    else if n * 10 + digitVal c > maxUint64 then UintResult.rangeError
    else parseUintLoop rest (n * 10 + digitVal c)

/-- `strconv.ParseUint(s, 10, 64)`. -/
def parseUint (s : List Char) : UintResult :=
  if s = [] then UintResult.syntaxError else parseUintLoop s 0

/-- `strconv.ParseInt(s, 10, 0)`: the value, and whether the error is nil.  A
number out of range comes back as the nearest `int`, with an error. -/
def parseInt (s : List Char) : Int × Bool :=
  match s with
  | [] => (0, false)
  | c :: rest =>
    let neg := c = '-'
    let body := if isSign c then rest else s
    match parseUint body with
    | UintResult.syntaxError => (0, false)
    | UintResult.rangeError => (if neg then minInt else maxInt, false)
    | UintResult.value un =>
      if !neg && un ≥ 9223372036854775808 then (maxInt, false)
      else if neg && un > 9223372036854775808 then (minInt, false)
      else (if neg then -(un : Int) else (un : Int), true)

/-- The fast path of `strconv.Atoi`, taken by strings of 1 to 18 bytes. -/
def atoiFast (s : List Char) : Int × Bool :=
  match s with
  | [] => (0, false)
  | c :: rest =>
    let body := if isSign c then rest else s
    if body = [] then (0, false)
    else if body.all isDigit then
      let n : Nat := body.foldl (fun n ch => n * 10 + digitVal ch) 0
      (if c = '-' then -(n : Int) else (n : Int), true)
    else (0, false)

/-- `strconv.Atoi` on a 64-bit platform: the value, and whether the error is
nil. -/
def Atoi (s : String) : Int × Bool :=
  if 0 < s.utf8ByteSize ∧ s.utf8ByteSize < 19 then atoiFast s.data else parseInt s.data

/-- The decimal digits of a natural number, most significant first. -/
def natDigitsAux : Nat → Nat → List Char → List Char
  | 0, _, acc => acc
  | fuel + 1, n, acc =>
    if n < 10 then digitChar n :: acc
    else natDigitsAux fuel (n / 10) (digitChar (n % 10) :: acc)

/-- The decimal digits of a natural number. -/
def natDigits (n : Nat) : List Char := natDigitsAux (n + 1) n []

/-- `strconv.Itoa`. -/
def Itoa (i : Int) : String :=
  if i < 0 then String.mk ('-' :: natDigits i.natAbs) else String.mk (natDigits i.natAbs)

/-! ## time -/

/-- A `time.Time`: an instant (seconds since the Unix epoch and nanoseconds
within the second) and the offset of its zone in seconds east of UTC. -/
structure Time where
  unix : Int
  nsec : Nat
  offset : Int
  deriving DecidableEq, Repr

/-- The zero `time.Time`, January 1 of year 1, 00:00:00 UTC. -/
def Time.zero : Time := { unix := -62135596800, nsec := 0, offset := 0 }

/-- `t.After(u)`: the instant of `t` is later than the instant of `u`. -/
def Time.After (t u : Time) : Bool :=
  decide (t.unix > u.unix) || (decide (t.unix = u.unix) && decide (t.nsec > u.nsec))

/-- The text formats of package `time` the program uses: `t.Format(time.RFC3339)`,
`time.Parse(time.RFC3339, s)` and `time.Parse("2006-01-02T15:04:05", s)`, a
parse yielding `none` where Go returns an error. -/
structure TimeLib where
  format : Time → String
  parse : String → Option Time
  parseSimple : String → Option Time

/-! ### RFC 3339 text, for concrete runs

The instance `rfc3339` below is used where an operation is evaluated at a
concrete input.  Its `format` is the layout `2006-01-02T15:04:05Z07:00` in the
proleptic Gregorian calendar; its `parse` accepts the texts of the shape
`YYYY-MM-DDTHH:MM:SS[.fraction](Z|+HH:MM|-HH:MM)` with every field in range,
which are texts `time.Parse` accepts with the same result. -/

/-- The days from 1970-01-01 to a date of the proleptic Gregorian calendar. -/
def daysFromCivil (y m d : Int) : Int :=
  let y1 := if m ≤ 2 then y - 1 else y
  let era := y1 / 400
  let yoe := y1 - era * 400
  let mp := if m > 2 then m - 3 else m + 9
  let doy := (153 * mp + 2) / 5 + d - 1
  let doe := yoe * 365 + yoe / 4 - yoe / 100 + doy
  era * 146097 + doe - 719468

/-- The date (year, month, day) a number of days after 1970-01-01. -/
def civilFromDays (days : Int) : Int × Int × Int :=
  let z := days + 719468
  let era := z / 146097
  let doe := z - era * 146097
  let yoe := (doe - doe / 1460 + doe / 36524 - doe / 146096) / 365
  let doy := doe - (365 * yoe + yoe / 4 - yoe / 100)
  let mp := (5 * doy + 2) / 153
  let d := doy - (153 * mp + 2) / 5 + 1
  let m := if mp < 10 then mp + 3 else mp - 9
  (yoe + era * 400 + (if m ≤ 2 then 1 else 0), m, d)

/-- A number in at least `width` decimal digits. -/
def padded (width n : Nat) : List Char :=
  let ds := natDigits n
  List.replicate (width - ds.length) '0' ++ ds

/-- The zone of the RFC 3339 layout: `Z` for UTC, else the offset in hours and
minutes. -/
def formatZone (offset : Int) : List Char :=
  if offset = 0 then ['Z']
  else
    let minutes := offset.natAbs / 60
    (if offset ≤ -60 then '-' else '+') :: (padded 2 (minutes / 60) ++ ':' :: padded 2 (minutes % 60))

/-- The layout `2006-01-02T15:04:05Z07:00` of an instant in its zone. -/
def formatRFC3339 (t : Time) : String :=
  let wall : Int := t.unix + t.offset
  let days := wall / 86400
  let secs := (wall % 86400).toNat
  let (y, m, d) := civilFromDays days
  String.mk ((if y < 0 then ['-'] else []) ++ padded 4 y.natAbs ++ '-' :: padded 2 m.toNat ++
    '-' :: padded 2 d.toNat ++ 'T' :: padded 2 (secs / 3600) ++ ':' :: padded 2 (secs % 3600 / 60)
    ++ ':' :: padded 2 (secs % 60) ++ formatZone t.offset)

/-- The number two digits spell. -/
def twoDigits (a b : Char) : Option Nat :=
  if isDigit a && isDigit b then some (digitVal a * 10 + digitVal b) else none

/-- The days of a month. -/
def daysIn (y : Int) (m : Nat) : Nat :=
  if m = 2 then (if y % 4 = 0 ∧ (y % 100 ≠ 0 ∨ y % 400 = 0) then 29 else 28)
  else if m = 4 ∨ m = 6 ∨ m = 9 ∨ m = 11 then 30 else 31

/-- The nanoseconds a fraction of a second spells, digits past the ninth
dropped. -/
def fractionNanos (digits : List Char) : Nat :=
  ((digits.take 9).foldl (fun n c => n * 10 + digitVal c) 0) * 10 ^ (9 - (digits.take 9).length)

/-- The date and time of day at the front of an RFC 3339 text: the seconds
since the epoch they spell when read as UTC, and the rest of the text. -/
def parseDateTime (s : List Char) : Option (Int × List Char) :=
  match s with
  | y1 :: y2 :: y3 :: y4 :: '-' :: m1 :: m2 :: '-' :: d1 :: d2 :: 'T' :: h1 :: h2 :: ':' ::
      i1 :: i2 :: ':' :: s1 :: s2 :: rest =>
    match twoDigits y1 y2, twoDigits y3 y4, twoDigits m1 m2, twoDigits d1 d2, twoDigits h1 h2,
      twoDigits i1 i2, twoDigits s1 s2 with
    | some ya, some yb, some m, some d, some h, some i, some sec =>
      let y : Int := ya * 100 + yb
      if 1 ≤ m ∧ m ≤ 12 ∧ 1 ≤ d ∧ d ≤ daysIn y m ∧ h < 24 ∧ i < 60 ∧ sec < 60 then
        some (daysFromCivil y m d * 86400 + h * 3600 + i * 60 + sec, rest)
      else none
    | _, _, _, _, _, _, _ => none
  | _ => none

/-- The fraction of a second at the front of a text, if there is one: its
nanoseconds, and the rest of the text. -/
def parseFraction (s : List Char) : Option (Nat × List Char) :=
  match s with
  | '.' :: rest =>
    let digits := rest.takeWhile isDigit
    if digits = [] then none else some (fractionNanos digits, rest.dropWhile isDigit)
  | _ => some (0, s)

/-- The zone at the end of an RFC 3339 text: its offset in seconds. -/
def parseZone (s : List Char) : Option Int :=
  match s with
  | ['Z'] => some 0
  | [sign, h1, h2, ':', m1, m2] =>
    match twoDigits h1 h2, twoDigits m1 m2 with
    | some h, some m =>
      if (sign = '+' ∨ sign = '-') ∧ h < 24 ∧ m < 60 then
        some (if sign = '-' then -((h * 3600 + m * 60 : Nat) : Int) else ((h * 3600 + m * 60 : Nat) : Int))
      else none
    | _, _ => none
  | _ => none

/-- The texts of the layout `2006-01-02T15:04:05Z07:00`. -/
def parseRFC3339 (s : String) : Option Time :=
  match parseDateTime s.data with
  | none => none
  | some (wall, rest) =>
    match parseFraction rest with
    | none => none
    | some (nsec, zone) =>
      match parseZone zone with
      | none => none
      | some offset => some { unix := wall - offset, nsec := nsec, offset := offset }

/-- The texts of the layout `2006-01-02T15:04:05`, read as UTC. -/
def parseSimpleLayout (s : String) : Option Time :=
  match parseDateTime s.data with
  | none => none
  | some (wall, rest) =>
    match parseFraction rest with
    | some (nsec, []) => some { unix := wall, nsec := nsec, offset := 0 }
    | _ => none

/-- The `TimeLib` of RFC 3339 text. -/
def rfc3339 : TimeLib :=
  { format := formatRFC3339, parse := parseRFC3339, parseSimple := parseSimpleLayout }

/-! ## The record store (`Logger`) -/

/-- `LogEntry`: a single log entry. -/
structure LogEntry where
  ID : Int
  Transaction : String
  Datetime : Time
  Name : String
  Value : String
  Source : String
  Location : String
  CreatedAt : Time
  deriving DecidableEq, Repr

/-- The file at the store path: `none` when no file exists there. -/
abbrev Disk := Option (List Char)

/-- The errors the store hands to its caller. -/
inductive Err where
  | notExist
  | csv (e : CsvError)
  deriving DecidableEq, Repr

/-- The outcome of a call that can also end in a run-time panic. -/
inductive Result (α : Type) where
  | ok (a : α)
  | error (e : Err)
  | panic
  deriving DecidableEq, Repr

/-- The header row of the current schema. -/
def headers : List String :=
  ["id", "transaction", "datetime", "name", "value", "source", "location", "created_at"]

/-- `Logger.createNewFile`: `os.Create` empties or creates the file, then the
header row is written. -/
def createNewFile : Disk := some (csvWrite headers)

/-- `Logger.initFile`: a missing file is created; a file whose header cannot be
read, has fewer than 8 columns or has a 7th column other than `location` is
removed and created anew; any other file is left as it is. -/
def initFile (d : Disk) : Disk :=
  match d with
  | none => createNewFile
  | some content =>
    match csvRead content with
    | Except.error _ => createNewFile
    | Except.ok hs =>
      if hs.length < 8 || (hs.length ≥ 7 && hs.getD 6 "" != "location") then createNewFile
      else some content

/-- `NewLogger`: the disk a new `Logger` starts on. -/
def NewLogger (d : Disk) : Disk := initFile d

/-- One row of the file as a `LogEntry`: an id or a time that does not parse
becomes the value the failed parse returns. -/
def entryOfRecord (tl : TimeLib) (record : List String) : LogEntry :=
  { ID := (Atoi (record.getD 0 "")).1
    Transaction := record.getD 1 ""
    Datetime := (tl.parse (record.getD 2 "")).getD Time.zero
    Name := record.getD 3 ""
    Value := record.getD 4 ""
    Source := record.getD 5 ""
    Location := record.getD 6 ""
    CreatedAt := (tl.parse (record.getD 7 "")).getD Time.zero }

/-- The loop of `Logger.readAllEntries`: the first record is the header, and a
record with fewer than 8 fields is skipped. -/
def entriesOfRecords (tl : TimeLib) (records : List (List String)) : List LogEntry :=
  (records.drop 1).filterMap
    (fun record => if record.length < 8 then none else some (entryOfRecord tl record))

/-- `Logger.readAllEntries`. -/
def readAllEntries (tl : TimeLib) (d : Disk) : Except Err (List LogEntry) :=
  match d with
  | none => Except.error Err.notExist
  | some content =>
    match csvReadAll content with
    | Except.error e => Except.error (Err.csv e)
    | Except.ok records => Except.ok (entriesOfRecords tl records)

/-- The loop of `Logger.AddEntry` that finds the greatest id, starting at 0. -/
def maxID (entries : List LogEntry) : Int :=
  entries.foldl (fun m e => if e.ID > m then e.ID else m) 0

/-- The id `Logger.AddEntry` gives the next entry. -/
def nextID (entries : List LogEntry) : Int :=
  if entries.length > 0 then wrapInt (maxID entries + 1) else 1

/-- The row `Logger.AddEntry` writes; `now` is what `time.Now()` returns in the
call. -/
def recordOf (tl : TimeLib) (now : Time) (id : Int) (datetime : Time)
    (transaction name value source location : String) : List String :=
  [Itoa id, transaction, tl.format datetime, name, value, source, location, tl.format now]

/-- `Logger.AddEntry`: the id of the new entry and the disk after the call. -/
def AddEntry (tl : TimeLib) (now : Time) (d : Disk) (datetime : Time)
    (transaction name value source location : String) : Except Err (Int × Disk) :=
  match readAllEntries tl d with
  | Except.error e => Except.error e
  | Except.ok entries =>
    match d with
    | none => Except.error Err.notExist
    | some content =>
      let id := nextID entries
      Except.ok (id, some (content ++
        csvWrite (recordOf tl now id datetime transaction name value source location)))

/-- The filter of `Logger.GetEntries`: an empty filter string is not applied. -/
def matchesFilter (source name : String) (e : LogEntry) : Bool :=
  !(source != "" && e.Source != source) && !(name != "" && e.Name != name)

/-- The pagination of `Logger.GetEntries` on the filtered entries.  The slice
expression `filtered[offset:end]` panics when `offset` is negative or `end` is
below `offset`. -/
def paginate (filtered : List LogEntry) (limit offset : Int) : Result (List LogEntry × Int) :=
  let total : Int := filtered.length
  if offset ≥ total then Result.ok ([], total)
  else
    let end0 := wrapInt (offset + limit)
    let end1 := if end0 > total then total else end0
    if offset < 0 || end1 < offset then Result.panic
    else Result.ok ((filtered.drop offset.toNat).take (end1 - offset).toNat, total)

/-- `Logger.GetEntries`: the page and the number of matching entries. -/
def GetEntries (tl : TimeLib) (d : Disk) (limit offset : Int) (source name : String) :
    Result (List LogEntry × Int) :=
  match readAllEntries tl d with
  | Except.error e => Result.error e
  | Except.ok entries => paginate (entries.filter (matchesFilter source name)) limit offset

/-- `Logger.ClearEntries`: the disk after the call. -/
def ClearEntries (_d : Disk) : Disk := some (csvWrite headers)

/-- The test `Logger.GetLocationForSource` applies to an entry. -/
def isLocationOf (source : String) (e : LogEntry) : Bool :=
  e.Source == source && e.Transaction == "set_location" && e.Name == "location"

/-- One iteration of the loop of `Logger.GetLocationForSource`. -/
def locationStep (source : String) (mostRecent : Option LogEntry) (e : LogEntry) :
    Option LogEntry :=
  if isLocationOf source e then
    match mostRecent with
    | none => some e
    | some m => if e.CreatedAt.After m.CreatedAt then some e else some m
  else mostRecent

/-- The loop of `Logger.GetLocationForSource`, from the last entry to the
first. -/
def mostRecentLocation (source : String) (entries : List LogEntry) : Option LogEntry :=
  entries.reverse.foldl (locationStep source) none

/-- `Logger.GetLocationForSource`. -/
def GetLocationForSource (tl : TimeLib) (d : Disk) (source : String) : String × Bool :=
  match readAllEntries tl d with
  | Except.error _ => ("", false)
  | Except.ok entries =>
    match mostRecentLocation source entries with
    | some m => (m.Value, true)
    | none => ("", false)

/-- The keys of a `map[string]bool` after one more assignment `m[k] = true`. -/
def insertKey (keys : List String) (k : String) : List String :=
  if k ∈ keys then keys else keys ++ [k]

/-- The order in which one `for k := range m` loop visits the keys of a map.
Go leaves that order open and changes it from one loop to the next: all that
is known is that every key is visited once. -/
structure RangeOrder where
  order : List String → List String
  perm : ∀ keys, (order keys).Perm keys

/-- The range order that visits the keys in the order of their first
assignment. -/
def RangeOrder.insertion : RangeOrder :=
  { order := fun keys => keys, perm := fun keys => List.Perm.refl keys }

/-- The result of `Logger.GetStats`. -/
structure Stats where
  total_entries : Nat
  unique_sources : Nat
  unique_names : Nat
  sources : List String
  names : List String
  deriving DecidableEq, Repr

/-- The body of `Logger.GetStats` on the entries read; `so` and `no` are the
orders in which the two `range` loops of the call visit `sourcesMap` and
`namesMap`. -/
def statsOf (so no : RangeOrder) (entries : List LogEntry) : Stats :=
  let sourcesMap := entries.foldl (fun m e => insertKey m e.Source) []
  let namesMap := entries.foldl (fun m e => insertKey m e.Name) []
  let sources := so.order sourcesMap
  let names := no.order namesMap
  { total_entries := entries.length
    unique_sources := sources.length
    unique_names := names.length
    sources := sources
    names := names }

/-- `Logger.GetStats`. -/
def GetStats (tl : TimeLib) (so no : RangeOrder) (d : Disk) : Except Err Stats :=
  match readAllEntries tl d with
  | Except.error e => Except.error e
  | Except.ok entries => Except.ok (statsOf so no entries)

/-! ## The request handlers that write to the store -/

/-- The `value` of an add request after decoding: a string, JSON `null`, or any
other JSON value, which comes with the text `strconv.FormatFloat` or
`fmt.Sprintf` renders it as. -/
inductive ReqValue where
  | str (s : String)
  | null
  | other (text : String)
  deriving DecidableEq, Repr

/-- `AddLogRequest`. -/
structure AddLogRequest where
  Datetime : String
  Transaction : String
  Name : String
  Value : ReqValue
  Source : String
  Note : String
  deriving DecidableEq, Repr

/-- What a handler answers: a request turned down before the store is touched,
a store error, or the id of the entry created. -/
inductive Response where
  | rejected (message : String)
  | failed (e : Err)
  | created (id : Int)
  deriving DecidableEq, Repr

/-- The text stored for a request value. -/
def valueString : ReqValue → String
  | ReqValue.str s => s
  | ReqValue.null => ""
  | ReqValue.other text => text

/-- The location a handler stores with a new entry; `seen` is the file as the
handler's call of `GetLocationForSource` finds it. -/
def locationFor (tl : TimeLib) (seen : Disk) (transaction name value source : String) :
    String :=
  if transaction == "set_location" && name == "location" then value
  else (GetLocationForSource tl seen source).1

/-- The end of both handlers: the call of `AddEntry` and the answer. -/
def respond (d : Disk) (r : Except Err (Int × Disk)) : Response × Disk :=
  match r with
  | Except.error e => (Response.failed e, d)
  | Except.ok (id, d1) => (Response.created id, d1)

/-- The name `Server.addLogEntry` stores: `note` for a note transaction. -/
def AddLogRequest.storedName (req : AddLogRequest) : String :=
  if req.Transaction == "note" then "note" else req.Name

/-- The value `Server.addLogEntry` stores: the note of a note transaction, else
the text of the request value. -/
def AddLogRequest.storedValue (req : AddLogRequest) : String :=
  valueString (if req.Transaction == "note" then ReqValue.str req.Note else req.Value)

/-- `Server.addLogEntry` on a decoded request.  The handler calls
`GetLocationForSource` and then `AddEntry`, each under a lock of its own:
`seen` is the file as the first call finds it, `d` the file as the second call
finds it, which differs from `seen` when another request wrote in between.  The
answer comes with the file after the call. -/
def addLogEntry (tl : TimeLib) (now : Time) (seen d : Disk) (req : AddLogRequest) :
    Response × Disk :=
  if req.Datetime == "" then (Response.rejected "missing required field: datetime", d)
  else if req.Transaction == "note" && req.Note == "" then
    (Response.rejected "missing required field: note", d)
  else if req.Transaction != "note" && req.Name == "" then
    (Response.rejected "missing required field: name", d)
  else
    match (tl.parse req.Datetime).orElse (fun _ => tl.parseSimple req.Datetime) with
    | none =>
      (Response.rejected "invalid datetime format, use RFC3339 or YYYY-MM-DDTHH:MM:SS", d)
    | some dt =>
      let location :=
        locationFor tl seen req.Transaction req.storedName req.storedValue req.Source
      respond d (AddEntry tl now d dt req.Transaction req.storedName req.storedValue req.Source
        location)

/-- The query parameters of `/quick`. -/
structure QuickQuery where
  name : String
  value : String
  source : String
  transaction : String
  note : String
  deriving DecidableEq, Repr

/-- The name `Server.handleQuickLog` stores: `note` for a note transaction. -/
def QuickQuery.storedName (q : QuickQuery) : String :=
  if q.transaction == "note" then "note" else q.name

/-- The value `Server.handleQuickLog` stores: the note of a note transaction. -/
def QuickQuery.storedValue (q : QuickQuery) : String :=
  if q.transaction == "note" then q.note else q.value

/-- `Server.handleQuickLog`; `received` is the `time.Now()` the handler passes
as the datetime, `now` the one `AddEntry` takes for `created_at`.  As in
`addLogEntry`, `seen` is the file as the call of `GetLocationForSource` finds
it and `d` the file as the call of `AddEntry` finds it. -/
def handleQuickLog (tl : TimeLib) (received now : Time) (seen d : Disk) (q : QuickQuery) :
    Response × Disk :=
  if q.transaction == "note" && q.note == "" then
    (Response.rejected "note parameter is required for note transactions", d)
  else if q.transaction != "note" && q.name == "" then
    (Response.rejected "name parameter is required", d)
  else
    let location := locationFor tl seen q.transaction q.storedName q.storedValue q.source
    respond d (AddEntry tl now d received q.transaction q.storedName q.storedValue q.source
      location)

/-! ## The words of the claims -/

/-- A store file the program itself could have written: it is readable, its
header row has 8 columns and its last character is a newline. -/
def wellFormed (d : Disk) : Bool :=
  match d with
  | none => false
  | some content =>
    decide (content.getLast? = some '\n') &&
      match csvReadAll content with
      | Except.ok (hdr :: _) => decide (hdr.length = 8)
      | _ => false

/-- What `NewLogger` on a file that ends in a newline, and every successful call
after it, leaves: a file whose last character is a newline and whose first
record, when the file is readable, has at least 8 fields. -/
def Started (d : Disk) : Prop :=
  ∃ content, d = some content ∧ content.getLast? = some '\n' ∧
    ∀ records, csvReadAll content = Except.ok records →
      ∃ hdr rows, records = hdr :: rows ∧ 8 ≤ hdr.length

/-- The entry `readAllEntries` makes of the row `AddEntry` wrote. -/
def entryWritten (tl : TimeLib) (now : Time) (id : Int) (datetime : Time)
    (transaction name value source location : String) : LogEntry :=
  { ID := id
    Transaction := readBack transaction
    Datetime := (tl.parse (readBack (tl.format datetime))).getD Time.zero
    Name := readBack name
    Value := readBack value
    Source := readBack source
    Location := readBack location
    CreatedAt := (tl.parse (readBack (tl.format now))).getD Time.zero }

/-- The CreatedAt an entry written at `now` is read back with. -/
def createdAtRead (tl : TimeLib) (now : Time) : Time :=
  (tl.parse (readBack (tl.format now))).getD Time.zero

/-- A call of the claim's sequence: `AddEntry` with the clock reading and the
arguments of the call, or `ClearEntries`. -/
inductive Op where
  | add (now datetime : Time) (transaction name value source location : String)
  | clear
  deriving DecidableEq, Repr

/-- What a successful call returned: the id of `AddEntry`, or nothing. -/
inductive Event where
  | added (id : Int)
  | cleared
  deriving DecidableEq, Repr

/-- A sequence of calls on one `Logger`, every one of them successful: what the
calls returned, and the disk after the last; `none` when a call fails. -/
def runOps (tl : TimeLib) : Disk → List Op → Option (List Event × Disk)
  | d, [] => some ([], d)
  | d, Op.add now datetime transaction name value source location :: rest =>
    match AddEntry tl now d datetime transaction name value source location with
    | Except.error _ => none
    | Except.ok (id, d1) =>
      match runOps tl d1 rest with
      | none => none
      | some (trace, d2) => some (Event.added id :: trace, d2)
  | d, Op.clear :: rest =>
    match runOps tl (ClearEntries d) rest with
    | none => none
    | some (trace, d2) => some (Event.cleared :: trace, d2)

/-- Id monotonicity of a sequence of calls: an id is greater than every id
returned earlier with no `ClearEntries` in between, and the first `AddEntry`
after a `ClearEntries` returns 1. -/
def IdsIncrease (trace : List Event) : Prop :=
  (∀ pre mid post a b, trace = pre ++ Event.added a :: (mid ++ Event.added b :: post) →
      Event.cleared ∉ mid → a < b) ∧
  (∀ pre mid post b, trace = pre ++ Event.cleared :: (mid ++ Event.added b :: post) →
      (∀ x ∈ mid, x = Event.cleared) → b = 1)

/-- The condition of the claim on an entry: each filter is empty or equals the
field. -/
def Passes (source name : String) (e : LogEntry) : Prop :=
  (source = "" ∨ e.Source = source) ∧ (name = "" ∨ e.Name = name)

instance (source name : String) (e : LogEntry) : Decidable (Passes source name e) := by
  unfold Passes; exact inferInstance

/-- The entries the claim calls location entries of a source. -/
def Declares (source : String) (e : LogEntry) : Prop :=
  e.Source = source ∧ e.Transaction = "set_location" ∧ e.Name = "location"

/-- An add request with these stored fields is accepted by one of the two
handlers: the handler, whose lookup of the location finds the file `seen`,
reaches `AddEntry`, which finds the file `d` and reads the clock as `now`, and
answers with the id of the entry created; `d1` is the disk afterwards. -/
def Accepted (tl : TimeLib) (now : Time) (seen d : Disk)
    (transaction name value source : String) (id : Int) (d1 : Disk) : Prop :=
  (∃ req : AddLogRequest, addLogEntry tl now seen d req = (Response.created id, d1) ∧
    req.Transaction = transaction ∧ req.storedName = name ∧ req.storedValue = value ∧
    req.Source = source) ∨
  (∃ (received : Time) (q : QuickQuery),
    handleQuickLog tl received now seen d q = (Response.created id, d1) ∧
    q.transaction = transaction ∧ q.storedName = name ∧ q.storedValue = value ∧
    q.source = source)

/-- A call of one of the five methods of `Logger`. -/
inductive Call where
  | addEntry (now datetime : Time) (transaction name value source location : String)
  | getEntries (limit offset : Int) (source name : String)
  | clearEntries
  | getLocationForSource (source : String)
  | getStats (so no : RangeOrder)

/-- The calls that only read the file: `GetEntries`, `GetLocationForSource` and
`GetStats` reach it through `readAllEntries` alone, which opens it with
`os.Open`. -/
def Call.readOnly : Call → Bool
  | Call.addEntry _ _ _ _ _ _ _ => false
  | Call.clearEntries => false
  | Call.getEntries _ _ _ _ => true
  | Call.getLocationForSource _ => true
  | Call.getStats _ _ => true

/-- The file after a call: `AddEntry` that succeeds appends a row,
`ClearEntries` writes the file anew, and no other call writes. -/
def Call.diskAfter (tl : TimeLib) (d : Disk) : Call → Disk
  | Call.addEntry now datetime transaction name value source location =>
    match AddEntry tl now d datetime transaction name value source location with
    | Except.ok (_, d1) => d1
    | Except.error _ => d
  | Call.clearEntries => ClearEntries d
  | Call.getEntries _ _ _ _ => d
  | Call.getLocationForSource _ => d
  | Call.getStats _ _ => d

/-! ## Stores and requests for concrete runs -/

/-- A store file with three entries of two sources. -/
def sampleStore : Disk :=
  some ("id,transaction,datetime,name,value,source,location,created_at\n" ++
    "1,set_location,2024-01-01T00:00:00Z,location,kitchen,dev1,kitchen,2024-01-01T00:00:05Z\n" ++
    "2,measurement,2024-01-01T00:01:00Z,temp,21.5,dev1,kitchen,2024-01-01T00:01:05Z\n" ++
    "3,measurement,2024-01-01T00:02:00Z,temp,19,dev2,,2024-01-01T00:02:05Z\n").data

/-- The entries of `sampleStore`. -/
def sampleEntries : List LogEntry :=
  entriesOfRecords rfc3339
    [headers,
     ["1", "set_location", "2024-01-01T00:00:00Z", "location", "kitchen", "dev1", "kitchen",
      "2024-01-01T00:00:05Z"],
     ["2", "measurement", "2024-01-01T00:01:00Z", "temp", "21.5", "dev1", "kitchen",
      "2024-01-01T00:01:05Z"],
     ["3", "measurement", "2024-01-01T00:02:00Z", "temp", "19", "dev2", "",
      "2024-01-01T00:02:05Z"]]

/-- A store file with the current header and one row whose id is the largest
`int`. -/
def maxIdStore : List Char :=
  ("id,transaction,datetime,name,value,source,location,created_at\n" ++
    "9223372036854775807,measurement,2024-01-01T00:00:00Z,temp,20,dev1,,2024-01-01T00:00:00Z\n").data

/-- Two calls of `AddEntry`, one second apart. -/
def twoAdds : List Op :=
  [Op.add ⟨1704067200, 0, 0⟩ ⟨1704067200, 0, 0⟩ "measurement" "temp" "21" "dev1" "",
   Op.add ⟨1704067201, 0, 0⟩ ⟨1704067201, 0, 0⟩ "measurement" "temp" "22" "dev1" ""]

/-- Three calls: `AddEntry`, `ClearEntries`, `AddEntry`. -/
def addClearAdd : List Op :=
  [Op.add ⟨1704067200, 0, 0⟩ ⟨1704067200, 0, 0⟩ "measurement" "temp" "21" "dev1" "",
   Op.clear,
   Op.add ⟨1704067201, 0, 0⟩ ⟨1704067201, 0, 0⟩ "measurement" "temp" "22" "dev1" ""]

/-- A store file with a location entry of `dev1` whose `created_at` lies in
2030. -/
def futureStore : Disk :=
  some ("id,transaction,datetime,name,value,source,location,created_at\n" ++
    "1,set_location,2030-01-01T00:00:00Z,location,garage,dev1,garage,2030-01-01T00:00:00Z\n").data

/-- The request `set_location` / `location` / `kitchen` of source `dev1`. -/
def kitchenRequest : AddLogRequest :=
  { Datetime := "2024-01-01T00:00:00Z", Transaction := "set_location", Name := "location",
    Value := ReqValue.str "kitchen", Source := "dev1", Note := "" }

/-- A measurement of source `dev1` sent to `/quick`. -/
def tempQuery : QuickQuery :=
  { name := "temp", value := "21.0", source := "dev1", transaction := "measurement", note := "" }

/-- A store file of the old schema: 7 columns, no `location`, two rows. -/
def oldFormatStore : List Char :=
  ("id,transaction,datetime,name,value,source,created_at\n" ++
    "1,measurement,2023-05-01T10:00:00Z,temp,20.5,dev1,2023-05-01T10:00:01Z\n" ++
    "2,measurement,2023-05-01T10:05:00Z,temp,20.7,dev1,2023-05-01T10:05:01Z\n").data

/-- A range order that visits the keys in the reverse of the order of their first
assignment. -/
def RangeOrder.reversed : RangeOrder :=
  { order := fun keys => keys.reverse, perm := fun keys => List.reverse_perm keys }

/-- A store file that is the header row of the current schema without the
newline after it. -/
def unterminatedStore : List Char :=
  "id,transaction,datetime,name,value,source,location,created_at".data

/-- A store file whose one row has a negative id. -/
def negativeIdStore : Disk :=
  some ("id,transaction,datetime,name,value,source,location,created_at\n" ++
    "-5,measurement,2024-01-01T00:00:00Z,temp,20,dev1,,2024-01-01T00:00:00Z\n").data

/-- A store file with the current header and a row whose value holds a quote. -/
def bareQuoteStore : List Char :=
  ("id,transaction,datetime,name,value,source,location,created_at\n" ++
    "1,measurement,2024-01-01T00:00:00Z,gap,6\" wide,dev1,,2024-01-01T00:00:05Z\n").data

/-- A store file with the current header and a row whose id is one more than the
largest `int`. -/
def bigIdStore : List Char :=
  ("id,transaction,datetime,name,value,source,location,created_at\n" ++
    "9223372036854775808,measurement,2024-01-01T00:00:00Z,temp,20,dev1,,2024-01-01T00:00:05Z\n").data

/-- A store file with the current header, a row of 7 fields and a row of 8
fields. -/
def shortRowStore : List Char :=
  ("id,transaction,datetime,name,value,source,location,created_at\n" ++
    "1,measurement,2024-01-01T00:00:00Z,temp,20,dev1,2024-01-01T00:00:05Z\n" ++
    "2,measurement,2024-01-01T00:01:00Z,temp,21,dev1,,2024-01-01T00:01:05Z\n").data

/-- A store file with the current header and three rows: one whose id and
datetime are no number and no time, one as the program writes it, and one whose
id is out of the range of an `int`. -/
def oddRowsStore : List Char :=
  ("id,transaction,datetime,name,value,source,location,created_at\n" ++
    "seven,measurement,yesterday,temp,20,dev1,hall,2024-01-01T00:00:05Z\n" ++
    "2,measurement,2024-01-01T00:01:00Z,temp,21,dev1,,2024-01-01T00:01:05Z\n" ++
    "-9223372036854775809,note,2024-01-01T00:02:00Z,memo,\"a,b\",dev2,,\n").data

/-- The rows of `oddRowsStore` after the header. -/
def oddRows : List (List String) :=
  [["seven", "measurement", "yesterday", "temp", "20", "dev1", "hall", "2024-01-01T00:00:05Z"],
   ["2", "measurement", "2024-01-01T00:01:00Z", "temp", "21", "dev1", "", "2024-01-01T00:01:05Z"],
   ["-9223372036854775809", "note", "2024-01-01T00:02:00Z", "memo", "a,b", "dev2", "", ""]]

/-! ## Notions of the proofs -/

/-- The reader consumes a run of characters of the normalised input. -/
def Reader.feed (s : Reader) (input : List Char) : Reader := input.foldl Reader.step s

/-- A character that does not end an unquoted field. -/
def plain (c : Char) : Bool := !(c = '\n' || c = '\r' || c = '"' || c = ',')

/-- The first record fixes the number of fields. -/
def fitsRecords (records : List (List String)) (n : Nat) : Prop :=
  match records with
  | [] => True
  | first :: _ => n = first.length

/-- Outside a field the reader holds no characters. -/
def Reader.Tidy (s : Reader) : Prop := s.mode = Mode.fieldStart → s.cur = []

/-- The number a run of digits spells after the number `acc`. -/
def digitsValue (acc : Nat) (l : List Char) : Nat :=
  l.foldl (fun n ch => n * 10 + digitVal ch) acc

/-- Every record read so far has as many fields as the first one. -/
def Reader.Uniform (s : Reader) : Prop :=
  ∀ first rest, s.records = first :: rest → ∀ r ∈ rest, r.length = first.length

/-! ## Reading back what `csv.Writer` wrote -/

theorem normalizeLines_cons (c : Char) (rest : List Char) :
    normalizeLines (c :: rest) =
      if c = '\r' ∧ (rest = [] ∨ rest.head? = some '\n') then normalizeLines rest
      else c :: normalizeLines rest := rfl

theorem normalizeLines_cons_ne (c : Char) (t : List Char) (h : c ≠ '\r') :
    normalizeLines (c :: t) = c :: normalizeLines t := by
  simp [normalizeLines, h]

theorem normalizeLines_append_cons (a b : List Char) (c : Char) (h : c ≠ '\r') :
    normalizeLines (a ++ c :: b) = normalizeLines (a ++ [c]) ++ normalizeLines b := by
  induction a with
  | nil => simp [normalizeLines, h]
  | cons x a ih =>
    have h1 : (a ++ c :: b).head? = (a ++ [c]).head? := by cases a <;> simp
    rw [List.cons_append, List.cons_append, normalizeLines_cons, normalizeLines_cons]
    simp only [h1, ih, List.append_eq_nil, List.cons_ne_nil, and_false, false_or, reduceCtorEq]
    split <;> simp

theorem normalizeLines_snoc (a : List Char) (c : Char) (h : c ≠ '\r') :
    ∃ p, normalizeLines (a ++ [c]) = p ++ [c] := by
  induction a with
  | nil => exact ⟨[], by simp [normalizeLines, h]⟩
  | cons x a ih =>
    obtain ⟨p, hp⟩ := ih
    rw [List.cons_append, normalizeLines_cons]
    split
    · exact ⟨p, hp⟩
    · exact ⟨x :: p, by simp [hp]⟩

theorem feed_append (s : Reader) (a b : List Char) : s.feed (a ++ b) = (s.feed a).feed b := by
  simp [Reader.feed, List.foldl_append]

theorem feed_cons (s : Reader) (c : Char) (t : List Char) : s.feed (c :: t) = (s.step c).feed t := rfl

theorem feed_nil (s : Reader) : s.feed [] = s := rfl

theorem step_err (s : Reader) (c : Char) (h : s.err.isSome) : s.step c = s := by
  simp [Reader.step, h]

theorem feed_err (s : Reader) (l : List Char) (h : s.err.isSome) : s.feed l = s := by
  induction l with
  | nil => rfl
  | cons c l ih => rw [feed_cons, step_err s c h, ih]

theorem crlf_cons (c : Char) (rest : List Char) :
    crlf (c :: rest) = if c = '\r' ∧ rest.head? = some '\n' then crlf rest else c :: crlf rest := rfl

theorem escapeQuotes_cons (c : Char) (rest : List Char) :
    escapeQuotes (c :: rest) =
      if c = '"' then '"' :: '"' :: escapeQuotes rest else c :: escapeQuotes rest := rfl

theorem head_escapeQuotes_append (g t : List Char) :
    (escapeQuotes g ++ '"' :: t).head? = some '\n' ↔ g.head? = some '\n' := by
  cases g with
  | nil => simp [escapeQuotes]
  | cons x g =>
    rw [escapeQuotes_cons]
    by_cases hx : x = '"'
    · subst hx; simp
    · simp [hx]

/-- Normalising the inside of a quoted field. -/
theorem normalizeLines_escapeQuotes (g t : List Char) :
    normalizeLines (escapeQuotes g ++ '"' :: t) =
      escapeQuotes (crlf g) ++ '"' :: normalizeLines t := by
  induction g with
  | nil => simp [escapeQuotes, crlf, normalizeLines_cons]
  | cons x g ih =>
    rw [escapeQuotes_cons, crlf_cons]
    by_cases hq : x = '"'
    · subst hq
      simp [normalizeLines_cons, ih, escapeQuotes_cons]
    · by_cases hr : x = '\r'
      · subst hr
        simp only [hq, if_false, List.cons_append, normalizeLines_cons, true_and,
          List.append_eq_nil, List.cons_ne_nil, and_false, false_or, reduceCtorEq,
          head_escapeQuotes_append, ih]
        split
        · rfl
        · simp [escapeQuotes_cons]
      · simp [hq, hr, normalizeLines_cons, ih, escapeQuotes_cons]

/-- Reading the inside of a quoted field. -/
theorem feed_escapeQuotes (g t cur : List Char) (fields : List String)
    (records : List (List String)) :
    Reader.feed ⟨Mode.quoted, cur, fields, records, none⟩ (escapeQuotes g ++ t) =
      Reader.feed ⟨Mode.quoted, cur ++ g, fields, records, none⟩ t := by
  induction g generalizing cur with
  | nil => simp [escapeQuotes]
  | cons x g ih =>
    rw [escapeQuotes_cons]
    by_cases hq : x = '"'
    · subst hq
      simp only [if_true, List.cons_append, feed_cons]
      have : ((Reader.mk Mode.quoted cur fields records none).step '"').step '"' =
          ⟨Mode.quoted, cur ++ ['"'], fields, records, none⟩ := by
        simp [Reader.step, Reader.push]
      rw [this, ih]; simp
    · simp only [hq, if_false, List.cons_append, feed_cons]
      have : (Reader.mk Mode.quoted cur fields records none).step x =
          ⟨Mode.quoted, cur ++ [x], fields, records, none⟩ := by
        simp [Reader.step, Reader.push, hq]
      rw [this, ih]; simp

theorem normalizeLines_plain (g t : List Char) (c : Char) (hg : g.all plain = true)
    (hc : c ≠ '\r') :
    normalizeLines (g ++ c :: t) = g ++ c :: normalizeLines t := by
  induction g with
  | nil => simp [normalizeLines_cons, hc]
  | cons x g ih =>
    simp only [List.all_cons, Bool.and_eq_true] at hg
    have hx : x ≠ '\r' := by
      intro h; subst h; simp [plain] at hg
    rw [List.cons_append, normalizeLines_cons_ne _ _ hx, ih hg.2]; rfl

theorem feed_plain (g t cur : List Char) (fields : List String)
    (records : List (List String)) (hg : g.all plain = true) :
    Reader.feed ⟨Mode.unquoted, cur, fields, records, none⟩ (g ++ t) =
      Reader.feed ⟨Mode.unquoted, cur ++ g, fields, records, none⟩ t := by
  induction g generalizing cur with
  | nil => simp
  | cons x g ih =>
    simp only [List.all_cons, Bool.and_eq_true] at hg
    have hx := hg.1
    simp only [plain, Bool.not_eq_true', Bool.or_eq_false_iff, decide_eq_false_iff_not] at hx
    have : (Reader.mk Mode.unquoted cur fields records none).step x =
        ⟨Mode.unquoted, cur ++ [x], fields, records, none⟩ := by
      simp [Reader.step, Reader.push, hx]
    rw [List.cons_append, feed_cons, this, ih _ hg.2]; simp

theorem plain_of_not_fieldNeedsQuotes (f : String) (h : fieldNeedsQuotes f = false) :
    f.data.all plain = true := by
  unfold fieldNeedsQuotes at h
  split at h
  · rename_i h0; rw [h0]; rfl
  · rename_i c rest h0
    rw [h0] at h ⊢
    split at h
    · simp at h
    · split at h
      · simp at h
      · rename_i _ h2
        simp only [List.any_eq_true, not_exists, not_and, Bool.not_eq_true] at h2
        simp only [List.all_eq_true]
        intro x hx
        have := h2 x hx
        simp only [plain, this, Bool.not_false]

theorem crlf_plain (g : List Char) (hg : g.all plain = true) : crlf g = g := by
  induction g with
  | nil => rfl
  | cons x g ih =>
    simp only [List.all_cons, Bool.and_eq_true] at hg
    have hx : x ≠ '\r' := by
      intro h; subst h; simp [plain] at hg
    rw [crlf_cons, ih hg.2]; simp [hx]

/-- Reading one written field up to the character that ends it. -/
theorem feed_writeField (f : String) (c : Char) (t : List Char) (fields : List String)
    (records : List (List String)) (hc : c ≠ '\r') :
    ∃ m, (m = Mode.quoteSeen ∨ m = Mode.unquoted ∨ (m = Mode.fieldStart ∧ f.data = [])) ∧
      Reader.feed ⟨Mode.fieldStart, [], fields, records, none⟩
        (normalizeLines (writeField f ++ c :: t)) =
      Reader.feed (Reader.step ⟨m, crlf f.data, fields, records, none⟩ c) (normalizeLines t) := by
  unfold writeField
  split
  · refine ⟨Mode.quoteSeen, Or.inl rfl, ?_⟩
    have e1 : ('"' :: (escapeQuotes f.data ++ ['"']) ++ c :: t) =
        '"' :: (escapeQuotes f.data ++ '"' :: (c :: t)) := by simp
    rw [e1, normalizeLines_cons_ne _ _ (by decide), normalizeLines_escapeQuotes,
      normalizeLines_cons_ne _ _ hc, feed_cons]
    have e2 : (Reader.mk Mode.fieldStart [] fields records none).step '"' =
        ⟨Mode.quoted, [], fields, records, none⟩ := by simp [Reader.step]
    rw [e2, feed_escapeQuotes, feed_cons, feed_cons]
    have e3 : (Reader.mk Mode.quoted ([] ++ crlf f.data) fields records none).step '"' =
        ⟨Mode.quoteSeen, crlf f.data, fields, records, none⟩ := by simp [Reader.step]
    rw [e3]
  · rename_i hq
    have hq : fieldNeedsQuotes f = false := by simpa using hq
    have hp := plain_of_not_fieldNeedsQuotes f hq
    rw [normalizeLines_plain _ _ _ hp hc, crlf_plain _ hp]
    cases hd : f.data with
    | nil => exact ⟨Mode.fieldStart, Or.inr (Or.inr ⟨rfl, rfl⟩), by simp [feed_cons]⟩
    | cons x g =>
      refine ⟨Mode.unquoted, Or.inr (Or.inl rfl), ?_⟩
      rw [hd] at hp
      simp only [List.all_cons, Bool.and_eq_true] at hp
      have hx := hp.1
      simp only [plain, Bool.not_eq_true', Bool.or_eq_false_iff, decide_eq_false_iff_not] at hx
      have e2 : (Reader.mk Mode.fieldStart [] fields records none).step x =
          ⟨Mode.unquoted, [x], fields, records, none⟩ := by
        simp [Reader.step, Reader.push, hx]
      rw [List.cons_append, feed_cons, e2, feed_plain _ _ _ _ _ hp.2, feed_cons]
      rfl

/-- Reading one written field and the comma after it. -/
theorem feed_writeField_comma (f : String) (t : List Char) (fields : List String)
    (records : List (List String)) :
    Reader.feed ⟨Mode.fieldStart, [], fields, records, none⟩
        (normalizeLines (writeField f ++ ',' :: t)) =
      Reader.feed ⟨Mode.fieldStart, [], fields ++ [readBack f], records, none⟩
        (normalizeLines t) := by
  obtain ⟨m, hm, h⟩ := feed_writeField f ',' t fields records (by decide)
  rw [h]
  rcases hm with hm | hm | ⟨hm, _⟩ <;> subst hm <;>
    simp [Reader.step, Reader.endField, readBack]

theorem endRecord_fits (m : Mode) (cur : List Char) (fields : List String)
    (records : List (List String)) (h : fitsRecords records (fields.length + 1)) :
    Reader.endRecord ⟨m, cur, fields, records, none⟩ =
      ⟨Mode.fieldStart, [], [], records ++ [fields ++ [String.mk cur]], none⟩ := by
  cases records with
  | nil => simp [Reader.endRecord]
  | cons first rest =>
    simp only [fitsRecords] at h
    simp [Reader.endRecord, h]

/-- Reading the last written field of a record and the newline after it. -/
theorem feed_writeField_newline (f : String) (t : List Char) (fields : List String)
    (records : List (List String)) (hf : fields ≠ [])
    (hfit : fitsRecords records (fields.length + 1)) :
    Reader.feed ⟨Mode.fieldStart, [], fields, records, none⟩
        (normalizeLines (writeField f ++ '\n' :: t)) =
      Reader.feed ⟨Mode.fieldStart, [], [], records ++ [fields ++ [readBack f]], none⟩
        (normalizeLines t) := by
  obtain ⟨m, hm, h⟩ := feed_writeField f '\n' t fields records (by decide)
  rw [h]
  rcases hm with hm | hm | ⟨hm, _⟩ <;> subst hm <;>
    simp [Reader.step, hf, endRecord_fits _ _ _ _ hfit, readBack]

theorem writeFields_cons_cons (f g : String) (rest : List String) :
    writeFields (f :: g :: rest) = writeField f ++ ',' :: writeFields (g :: rest) := rfl

/-- Reading one written record. -/
theorem feed_writeFields (fs : List String) (t : List Char) (fields : List String)
    (records : List (List String)) (hfs : fs ≠ []) (h2 : fields ≠ [] ∨ 2 ≤ fs.length)
    (hfit : fitsRecords records (fields.length + fs.length)) :
    Reader.feed ⟨Mode.fieldStart, [], fields, records, none⟩
        (normalizeLines (writeFields fs ++ '\n' :: t)) =
      Reader.feed ⟨Mode.fieldStart, [], [], records ++ [fields ++ fs.map readBack], none⟩
        (normalizeLines t) := by
  induction fs generalizing fields with
  | nil => exact absurd rfl hfs
  | cons f rest ih =>
    cases rest with
    | nil =>
      have hf : fields ≠ [] := by
        rcases h2 with h | h
        · exact h
        · simp at h
      simpa [writeFields] using feed_writeField_newline f t fields records hf (by simpa using hfit)
    | cons g rest =>
      have e : writeFields (f :: g :: rest) ++ '\n' :: t =
          writeField f ++ ',' :: (writeFields (g :: rest) ++ '\n' :: t) := by
        rw [writeFields_cons_cons]; simp
      rw [e, feed_writeField_comma, ih (fields ++ [readBack f]) (by simp) (Or.inl (by simp))
        (by simpa [Nat.add_assoc, Nat.add_comm 1] using hfit)]
      simp

theorem endRecord_cases (s : Reader) :
    (∃ rs, s.endRecord = ⟨Mode.fieldStart, [], [], rs, none⟩) ∨
      s.endRecord = s.fail CsvError.fieldCount := by
  unfold Reader.endRecord
  split
  · exact Or.inl ⟨_, rfl⟩
  · simp only
    split
    · exact Or.inl ⟨_, rfl⟩
    · exact Or.inr rfl

theorem endRecord_tidy (s : Reader) (h : s.Tidy) : s.endRecord.Tidy := by
  rcases endRecord_cases s with ⟨rs, e⟩ | e <;> rw [e]
  · intro _; rfl
  · exact h

theorem step_tidy (s : Reader) (c : Char) (h : s.Tidy) : (s.step c).Tidy := by
  unfold Reader.step
  split
  · exact h
  · split
    · rename_i hm
      split
      · intro h'; simp at h'
      · split
        · intro _; rfl
        · split
          · split
            · exact h
            · exact endRecord_tidy s h
          · intro h'; simp [Reader.push] at h'
    · split
      · exact h
      · split
        · intro _; rfl
        · split
          · exact endRecord_tidy s h
          · intro h'; simp [Reader.push] at h'
    · split
      · intro h'; simp at h'
      · intro h'; simp [Reader.push] at h'
    · split
      · intro h'; simp [Reader.push] at h'
      · split
        · intro _; rfl
        · split
          · exact endRecord_tidy s h
          · exact h

theorem feed_tidy (s : Reader) (l : List Char) (h : s.Tidy) : (s.feed l).Tidy := by
  induction l generalizing s with
  | nil => exact h
  | cons c l ih => exact ih _ (step_tidy s c h)

theorem finish_fieldStart (rs : List (List String)) :
    Reader.finish ⟨Mode.fieldStart, [], [], rs, none⟩ = ⟨Mode.fieldStart, [], [], rs, none⟩ := by
  simp [Reader.finish]

theorem finish_err (s : Reader) (h : s.err.isSome) : s.finish = s := by
  simp [Reader.finish, h]

/-- After a newline a reader that goes on to finish without an error stands
between two records. -/
theorem step_newline_state (s : Reader) (ht : s.Tidy)
    (h : ((s.step '\n').finish).err = none) :
    s.step '\n' = ⟨Mode.fieldStart, [], [], ((s.step '\n').finish).records, none⟩ := by
  have key : ∀ r : Reader, r.finish.err = none →
      ((∃ rs, r = ⟨Mode.fieldStart, [], [], rs, none⟩) ∨ r.err.isSome) →
      r = ⟨Mode.fieldStart, [], [], r.finish.records, none⟩ := by
    intro r hr hcase
    rcases hcase with ⟨rs, e⟩ | e
    · rw [e, finish_fieldStart]
    · rw [finish_err r e] at hr; rw [hr] at e; simp at e
  obtain ⟨mode, cur, fields, records, err⟩ := s
  cases err with
  | some e =>
    rw [step_err _ _ (by simp), finish_err _ (by simp)] at h
    simp at h
  | none =>
    have hER : ∀ r : Reader, r.err = none →
        (∃ rs, r.endRecord = ⟨Mode.fieldStart, [], [], rs, none⟩) ∨ r.endRecord.err.isSome := by
      intro r hr
      rcases endRecord_cases r with h1 | h1
      · exact Or.inl h1
      · right; rw [h1]; simp [Reader.fail]
    cases mode with
    | fieldStart =>
      have hc : cur = [] := ht rfl
      subst hc
      by_cases hf : fields = []
      · subst hf
        have e : (Reader.mk Mode.fieldStart [] [] records none).step '\n' =
            ⟨Mode.fieldStart, [], [], records, none⟩ := by simp [Reader.step]
        rw [e, finish_fieldStart]
      · have e : (Reader.mk Mode.fieldStart [] fields records none).step '\n' =
            (Reader.mk Mode.fieldStart [] fields records none).endRecord := by
          simp [Reader.step, hf]
        rw [e] at h ⊢
        exact key _ h (hER _ rfl)
    | unquoted =>
      have e : (Reader.mk Mode.unquoted cur fields records none).step '\n' =
          (Reader.mk Mode.unquoted cur fields records none).endRecord := by
        simp [Reader.step]
      rw [e] at h ⊢
      exact key _ h (hER _ rfl)
    | quoted =>
      have e : ((Reader.mk Mode.quoted cur fields records none).step '\n').finish.err =
          some CsvError.quote := by
        simp [Reader.step, Reader.push, Reader.finish, Reader.fail]
      rw [e] at h; simp at h
    | quoteSeen =>
      have e : (Reader.mk Mode.quoteSeen cur fields records none).step '\n' =
          (Reader.mk Mode.quoteSeen cur fields records none).endRecord := by
        simp [Reader.step]
      rw [e] at h ⊢
      exact key _ h (hER _ rfl)

theorem run_eq (input : List Char) :
    Reader.run input = (Reader.init.feed (normalizeLines input)).finish := rfl

theorem csvReadAll_ok_iff (input : List Char) (records : List (List String)) :
    csvReadAll input = Except.ok records ↔
      (Reader.run input).err = none ∧ (Reader.run input).records = records := by
  unfold csvReadAll
  cases h : (Reader.run input).err <;> simp [h]

/-- The reader after a readable input whose last character is a newline. -/
theorem feed_of_readable (a : List Char) (records : List (List String))
    (h : csvReadAll (a ++ ['\n']) = Except.ok records) :
    Reader.init.feed (normalizeLines (a ++ ['\n'])) =
      ⟨Mode.fieldStart, [], [], records, none⟩ := by
  rw [csvReadAll_ok_iff, run_eq] at h
  obtain ⟨p, hp⟩ := normalizeLines_snoc a '\n' (by decide)
  rw [hp, feed_append, feed_cons, feed_nil] at h ⊢
  have ht : (Reader.init.feed p).Tidy := feed_tidy _ _ (fun _ => rfl)
  rw [step_newline_state _ ht h.1, h.2]

/-- Appending a written record of at least two fields to a readable file whose
last character is a newline adds one record to what is read: the record, each
field as it is read back. -/
theorem csvReadAll_append (content : List Char) (records : List (List String))
    (fs : List String) (hnl : content.getLast? = some '\n')
    (hread : csvReadAll content = Except.ok records) (hfs : 2 ≤ fs.length)
    (hfit : fitsRecords records fs.length) :
    csvReadAll (content ++ csvWrite fs) = Except.ok (records ++ [fs.map readBack]) := by
  obtain ⟨a, rfl⟩ : ∃ a, content = a ++ ['\n'] := by
    rcases List.eq_nil_or_concat content with h | ⟨a, c, h⟩
    · subst h; simp at hnl
    · subst h; simp at hnl; subst hnl; exact ⟨a, by simp⟩
  have hst := feed_of_readable a records hread
  have e : a ++ ['\n'] ++ csvWrite fs = a ++ '\n' :: (writeFields fs ++ '\n' :: []) := by
    simp [csvWrite]
  rw [csvReadAll_ok_iff, run_eq, e, normalizeLines_append_cons _ _ _ (by decide), feed_append,
    hst, feed_writeFields fs [] [] records (by intro h; subst h; simp at hfs) (Or.inr hfs)
      (by simpa using hfit)]
  simp [normalizeLines, feed_nil, finish_fieldStart]

theorem endRecord_misfit (m : Mode) (cur : List Char) (fields : List String)
    (first : List String) (rest : List (List String))
    (h : fields.length + 1 ≠ first.length) :
    (Reader.endRecord ⟨m, cur, fields, first :: rest, none⟩).err = some CsvError.fieldCount := by
  simp [Reader.endRecord, h, Reader.fail]

/-- Reading the last written field of a record that has not the number of fields
of the first record. -/
theorem feed_writeField_newline_misfit (f : String) (t : List Char) (fields : List String)
    (first : List String) (rest : List (List String)) (hf : fields ≠ [])
    (hfit : fields.length + 1 ≠ first.length) :
    (Reader.feed ⟨Mode.fieldStart, [], fields, first :: rest, none⟩
      (normalizeLines (writeField f ++ '\n' :: t))).err = some CsvError.fieldCount := by
  obtain ⟨m, hm, h⟩ := feed_writeField f '\n' t fields (first :: rest) (by decide)
  rw [h]
  have hstep : (Reader.step ⟨m, crlf f.data, fields, first :: rest, none⟩ '\n').err =
      some CsvError.fieldCount := by
    rcases hm with hm | hm | ⟨hm, _⟩ <;> subst hm <;>
      simp [Reader.step, hf, endRecord_misfit _ _ _ _ _ hfit]
  rw [feed_err _ _ (by rw [hstep]; rfl), hstep]

/-- Reading a written record that has not the number of fields of the first
record. -/
theorem feed_writeFields_misfit (fs : List String) (t : List Char) (fields : List String)
    (first : List String) (rest : List (List String)) (hfs : fs ≠ [])
    (h2 : fields ≠ [] ∨ 2 ≤ fs.length) (hfit : fields.length + fs.length ≠ first.length) :
    (Reader.feed ⟨Mode.fieldStart, [], fields, first :: rest, none⟩
      (normalizeLines (writeFields fs ++ '\n' :: t))).err = some CsvError.fieldCount := by
  induction fs generalizing fields with
  | nil => exact absurd rfl hfs
  | cons f more ih =>
    cases more with
    | nil =>
      have hf : fields ≠ [] := by
        rcases h2 with h | h
        · exact h
        · simp at h
      simpa [writeFields] using
        feed_writeField_newline_misfit f t fields first rest hf (by simpa using hfit)
    | cons g more =>
      have e : writeFields (f :: g :: more) ++ '\n' :: t =
          writeField f ++ ',' :: (writeFields (g :: more) ++ '\n' :: t) := by
        rw [writeFields_cons_cons]; simp
      rw [e, feed_writeField_comma]
      exact ih (fields ++ [readBack f]) (by simp) (Or.inl (by simp))
        (by simp only [List.length_append, List.length_cons, List.length_nil] at hfit ⊢; omega)

/-- Appending a written record to a readable file whose first record has another
number of fields leaves a file that cannot be read. -/
theorem csvReadAll_append_misfit (content : List Char) (first : List String)
    (rest : List (List String)) (fs : List String) (hnl : content.getLast? = some '\n')
    (hread : csvReadAll content = Except.ok (first :: rest)) (hfs : 2 ≤ fs.length)
    (hfit : fs.length ≠ first.length) :
    csvReadAll (content ++ csvWrite fs) = Except.error CsvError.fieldCount := by
  obtain ⟨a, rfl⟩ : ∃ a, content = a ++ ['\n'] := by
    rcases List.eq_nil_or_concat content with h | ⟨a, c, h⟩
    · subst h; simp at hnl
    · subst h; simp at hnl; subst hnl; exact ⟨a, by simp⟩
  have hst := feed_of_readable a (first :: rest) hread
  have e : a ++ ['\n'] ++ csvWrite fs = a ++ '\n' :: (writeFields fs ++ '\n' :: []) := by
    simp [csvWrite]
  have herr := feed_writeFields_misfit fs [] [] first rest
    (by intro h; subst h; simp at hfs) (Or.inr hfs) (by simpa using hfit)
  have hrun : (Reader.run (a ++ ['\n'] ++ csvWrite fs)).err = some CsvError.fieldCount := by
    rw [run_eq, e, normalizeLines_append_cons _ _ _ (by decide), feed_append, hst,
      finish_err _ (by rw [herr]; rfl), herr]
  unfold csvReadAll
  simp only [hrun]

/-- The header `csv.Reader.Read` returns is the first record `ReadAll` returns. -/
theorem csvReadAll_head (content : List Char) (hs : List String) (records : List (List String))
    (h1 : csvRead content = Except.ok hs) (h2 : csvReadAll content = Except.ok records) :
    ∃ rows, records = hs :: rows := by
  rw [csvReadAll_ok_iff] at h2
  unfold csvRead at h1
  simp only at h1
  rw [h2.2] at h1
  cases records with
  | nil => simp at h1
  | cons first rows =>
    simp only [Except.ok.injEq] at h1
    exact ⟨rows, by rw [h1]⟩

theorem csvReadAll_headers : csvReadAll (csvWrite headers) = Except.ok [headers] := by
  set_option maxRecDepth 100000 in rfl

/-! ## Reading back what `strconv.Itoa` wrote -/

theorem natDigitsAux_append (fuel n : Nat) (acc : List Char) :
    natDigitsAux fuel n acc = natDigitsAux fuel n [] ++ acc := by
  induction fuel generalizing n acc with
  | zero => simp [natDigitsAux]
  | succ fuel ih =>
    simp only [natDigitsAux]
    split
    · simp
    · rw [ih, ih (n / 10) [digitChar (n % 10)]]; simp

theorem natDigitsAux_fuel (fuel fuel' n : Nat) (acc : List Char) (h : n < fuel) (h' : n < fuel') :
    natDigitsAux fuel n acc = natDigitsAux fuel' n acc := by
  induction fuel generalizing fuel' n acc with
  | zero => omega
  | succ fuel ih =>
    cases fuel' with
    | zero => omega
    | succ fuel' =>
      simp only [natDigitsAux]
      split
      · rfl
      · exact ih fuel' (n / 10) _ (by omega) (by omega)

theorem natDigits_lt (n : Nat) (h : n < 10) : natDigits n = [digitChar n] := by
  simp [natDigits, natDigitsAux, h]

theorem natDigits_ge (n : Nat) (h : 10 ≤ n) :
    natDigits n = natDigits (n / 10) ++ [digitChar (n % 10)] := by
  have h1 : ¬ n < 10 := by omega
  rw [natDigits, natDigitsAux]
  simp only [h1, if_false]
  rw [natDigitsAux_append, natDigitsAux_fuel n (n / 10 + 1) (n / 10) [] (by omega) (by omega)]
  rfl

theorem digitChar_toNat (d : Nat) (h : d < 10) : (digitChar d).toNat = 48 + d := by
  unfold digitChar
  have hv : (48 + d).isValidChar := by
    left; omega
  simp [Char.ofNat, hv, Char.toNat, Char.ofNatAux]
  rfl

theorem isDigit_digitChar (d : Nat) (h : d < 10) : isDigit (digitChar d) = true := by
  simp [isDigit, digitChar_toNat d h]; omega

theorem digitVal_digitChar (d : Nat) (h : d < 10) : digitVal (digitChar d) = d := by
  simp [digitVal, digitChar_toNat d h]

theorem natDigits_all_isDigit (n : Nat) : (natDigits n).all isDigit = true := by
  induction n using Nat.strong_induction_on with
  | _ n ih =>
    by_cases h : n < 10
    · simp [natDigits_lt n h, isDigit_digitChar n h]
    · rw [natDigits_ge n (by omega)]
      simp [ih (n / 10) (by omega), isDigit_digitChar (n % 10) (by omega)]

theorem digitsValue_natDigits (n : Nat) : digitsValue 0 (natDigits n) = n := by
  induction n using Nat.strong_induction_on with
  | _ n ih =>
    by_cases h : n < 10
    · simp [natDigits_lt n h, digitsValue, digitVal_digitChar n h]
    · rw [natDigits_ge n (by omega)]
      have := ih (n / 10) (by omega)
      simp only [digitsValue] at this ⊢
      rw [List.foldl_append, this]
      simp [digitVal_digitChar (n % 10) (by omega)]
      omega

theorem natDigits_ne_nil (n : Nat) : natDigits n ≠ [] := by
  by_cases h : n < 10
  · simp [natDigits_lt n h]
  · rw [natDigits_ge n (by omega)]; simp

theorem digitsValue_ge (acc : Nat) (l : List Char) : acc ≤ digitsValue acc l := by
  induction l generalizing acc with
  | nil => exact Nat.le_refl _
  | cons c l ih =>
    have := ih (acc * 10 + digitVal c)
    simp only [digitsValue, List.foldl_cons] at this ⊢
    omega

theorem parseUintLoop_digits (l : List Char) (acc : Nat) (hd : l.all isDigit = true)
    (hv : digitsValue acc l ≤ maxUint64) :
    parseUintLoop l acc = UintResult.value (digitsValue acc l) := by
  induction l generalizing acc with
  | nil => rfl
  | cons c l ih =>
    simp only [List.all_cons, Bool.and_eq_true] at hd
    have h1 : acc * 10 + digitVal c ≤ maxUint64 :=
      Nat.le_trans (digitsValue_ge _ l) (by simpa [digitsValue] using hv)
    have h2 : ¬ acc ≥ maxUint64 / 10 + 1 := by
      simp only [maxUint64] at h1 ⊢; omega
    have h3 : ¬ acc * 10 + digitVal c > maxUint64 := by omega
    simp only [parseUintLoop, hd.1, Bool.not_true, Bool.false_eq_true, if_false, h2, h3]
    exact ih _ hd.2 (by simpa [digitsValue] using hv)

theorem not_sign_of_isDigit (c : Char) (h : isDigit c = true) : isSign c = false ∧ c ≠ '-' := by
  have h45 : c ≠ '-' := by
    intro e; subst e; simp [isDigit] at h
  have h43 : c ≠ '+' := by
    intro e; subst e; simp [isDigit] at h
  simp [isSign, h45, h43]

theorem natDigits_head (k : Nat) :
    ∃ c rest, natDigits k = c :: rest ∧ isDigit c = true := by
  have hne := natDigits_ne_nil k
  have hall := natDigits_all_isDigit k
  cases h : natDigits k with
  | nil => exact absurd h hne
  | cons c rest =>
    rw [h] at hall
    simp only [List.all_cons, Bool.and_eq_true] at hall
    exact ⟨c, rest, rfl, hall.1⟩

theorem atoiFast_natDigits (k : Nat) : atoiFast (natDigits k) = ((k : Int), true) := by
  obtain ⟨c, rest, h, hc⟩ := natDigits_head k
  have hall := natDigits_all_isDigit k
  have hval := digitsValue_natDigits k
  rw [h] at hall hval ⊢
  obtain ⟨hs, hm⟩ := not_sign_of_isDigit c hc
  simp only [atoiFast, hs, Bool.false_eq_true, if_false, List.cons_ne_nil, hall, if_true, hm]
  simp only [digitsValue] at hval
  rw [hval]

theorem atoiFast_neg_natDigits (k : Nat) :
    atoiFast ('-' :: natDigits k) = (-(k : Int), true) := by
  have hall := natDigits_all_isDigit k
  have hval := digitsValue_natDigits k
  have hne := natDigits_ne_nil k
  have hs : isSign '-' = true := by decide
  simp only [atoiFast, hs, if_true, hne, if_false, hall]
  simp only [digitsValue] at hval
  rw [hval]

theorem parseUint_natDigits (k : Nat) (hk : k ≤ maxUint64) :
    parseUint (natDigits k) = UintResult.value k := by
  have hne := natDigits_ne_nil k
  simp only [parseUint, hne, if_false]
  rw [parseUintLoop_digits _ _ (natDigits_all_isDigit k) (by rw [digitsValue_natDigits]; exact hk),
    digitsValue_natDigits]

theorem parseInt_natDigits (k : Nat) (hk : (k : Int) ≤ maxInt) :
    parseInt (natDigits k) = ((k : Int), true) := by
  obtain ⟨c, rest, h, hc⟩ := natDigits_head k
  obtain ⟨hs, hm⟩ := not_sign_of_isDigit c hc
  have hk' : k ≤ 9223372036854775807 := by
    simp only [maxInt] at hk; omega
  have hu := parseUint_natDigits k (by simp only [maxUint64]; omega)
  rw [h] at hu ⊢
  simp only [parseInt, hs, Bool.false_eq_true, if_false, hu, hm, decide_False, Bool.not_false,
    Bool.true_and, Bool.false_and, decide_eq_true_eq]
  have : ¬ k ≥ 9223372036854775808 := by omega
  simp [this]

theorem parseInt_neg_natDigits (k : Nat) (hk : minInt ≤ -(k : Int)) :
    parseInt ('-' :: natDigits k) = (-(k : Int), true) := by
  have hk' : k ≤ 9223372036854775808 := by
    simp only [minInt] at hk; omega
  have hu := parseUint_natDigits k (by simp only [maxUint64]; omega)
  have hs : isSign '-' = true := by decide
  simp only [parseInt, hs, if_true, hu, decide_True, Bool.not_true, Bool.false_and,
    Bool.false_eq_true, if_false, Bool.true_and, decide_eq_true_eq]
  have : ¬ k > 9223372036854775808 := by omega
  simp [this]

/-- `strconv.Atoi` reads back every `int` that `strconv.Itoa` wrote. -/
theorem Atoi_Itoa (i : Int) (hlo : minInt ≤ i) (hhi : i ≤ maxInt) : Atoi (Itoa i) = (i, true) := by
  unfold Atoi Itoa
  by_cases hneg : i < 0
  · have e : -(i.natAbs : Int) = i := by omega
    simp only [hneg, if_true]
    split
    · rw [atoiFast_neg_natDigits, e]
    · rw [parseInt_neg_natDigits _ (by rw [e]; exact hlo), e]
  · have e : (i.natAbs : Int) = i := by omega
    simp only [hneg, if_false]
    split
    · rw [atoiFast_natDigits, e]
    · rw [parseInt_natDigits _ (by rw [e]; exact hhi), e]

theorem plain_of_isDigit (c : Char) (h : isDigit c = true) : plain c = true := by
  have h1 : c ≠ '\n' := by
    intro e; subst e; simp [isDigit] at h
  have h2 : c ≠ '\r' := by
    intro e; subst e; simp [isDigit] at h
  have h3 : c ≠ '"' := by
    intro e; subst e; simp [isDigit] at h
  have h4 : c ≠ ',' := by
    intro e; subst e; simp [isDigit] at h
  simp [plain, h1, h2, h3, h4]

/-- An id is read back from the file as it was written. -/
theorem readBack_Itoa (i : Int) : readBack (Itoa i) = Itoa i := by
  have hp : (natDigits i.natAbs).all plain = true := by
    have := natDigits_all_isDigit i.natAbs
    simp only [List.all_eq_true] at this ⊢
    exact fun x hx => plain_of_isDigit x (this x hx)
  unfold readBack Itoa
  split
  · rw [crlf_plain]
    simp only [List.all_cons, hp, Bool.and_true]; decide
  · rw [crlf_plain _ hp]

theorem length_le_utf8ByteSize (s : String) : s.data.length ≤ s.utf8ByteSize := by
  obtain ⟨l⟩ := s
  show l.length ≤ String.utf8ByteSize.go l
  induction l with
  | nil => simp [String.utf8ByteSize.go]
  | cons c l ih =>
    have := Char.utf8Size_pos c
    simp only [String.utf8ByteSize.go, List.length_cons]
    omega

theorem digitVal_le (c : Char) (h : isDigit c = true) : digitVal c ≤ 9 := by
  simp only [isDigit, Bool.and_eq_true, decide_eq_true_eq] at h
  simp only [digitVal]; omega

theorem digitsValue_lt (l : List Char) (acc : Nat) (hd : l.all isDigit = true) :
    digitsValue acc l < (acc + 1) * 10 ^ l.length := by
  induction l generalizing acc with
  | nil => simp [digitsValue]
  | cons c l ih =>
    simp only [List.all_cons, Bool.and_eq_true] at hd
    have h1 := ih (acc * 10 + digitVal c) hd.2
    have h2 := digitVal_le c hd.1
    have h3 : (acc * 10 + digitVal c + 1) * 10 ^ l.length ≤ (acc + 1) * 10 ^ (l.length + 1) := by
      rw [pow_succ]
      have : acc * 10 + digitVal c + 1 ≤ (acc + 1) * 10 := by omega
      calc (acc * 10 + digitVal c + 1) * 10 ^ l.length
          ≤ ((acc + 1) * 10) * 10 ^ l.length := Nat.mul_le_mul_right _ this
        _ = (acc + 1) * (10 ^ l.length * 10) := by ring
    simp only [digitsValue, List.foldl_cons, List.length_cons] at h1 ⊢
    exact Nat.lt_of_lt_of_le h1 h3

theorem atoiFast_range (s : List Char) (hlen : s.length < 19) :
    minInt ≤ (atoiFast s).1 ∧ (atoiFast s).1 ≤ maxInt := by
  cases s with
  | nil => simp [atoiFast, minInt, maxInt]
  | cons c rest =>
    have hb : (if isSign c = true then rest else c :: rest).length ≤ 18 := by
      split <;> simp at hlen ⊢ <;> omega
    simp only [atoiFast]
    generalize (if isSign c = true then rest else c :: rest) = body at hb ⊢
    by_cases h0 : body = []
    · simp [h0, minInt, maxInt]
    · by_cases hall : body.all isDigit = true
      · have h1 := digitsValue_lt _ 0 hall
        have h2 : 10 ^ body.length ≤ 10 ^ 18 := Nat.pow_le_pow_right (by decide) hb
        simp only [digitsValue, Nat.zero_add, Nat.one_mul] at h1
        simp only [h0, if_false, hall, if_true, minInt, maxInt]
        split <;> omega
      · simp [h0, hall, minInt, maxInt]

theorem parseInt_range (s : List Char) :
    minInt ≤ (parseInt s).1 ∧ (parseInt s).1 ≤ maxInt := by
  cases s with
  | nil => simp [parseInt, minInt, maxInt]
  | cons c rest =>
    simp only [parseInt]
    split
    · simp [minInt, maxInt]
    · split <;> simp [minInt, maxInt]
    · rename_i un _
      split
      · simp [minInt, maxInt]
      · split
        · simp [minInt, maxInt]
        · rename_i h1 h2
          simp only [Bool.and_eq_true, Bool.not_eq_true', decide_eq_false_iff_not,
            decide_eq_true_eq, not_and, not_le, not_lt] at h1 h2
          simp only [minInt, maxInt]
          by_cases hn : c = '-'
          · have := h2 hn
            simp only [hn, if_true]; omega
          · have := h1 hn
            simp only [hn, if_false]; omega

/-- `strconv.Atoi` returns an `int`. -/
theorem Atoi_range (s : String) : minInt ≤ (Atoi s).1 ∧ (Atoi s).1 ≤ maxInt := by
  unfold Atoi
  split
  · rename_i h
    exact atoiFast_range _ (Nat.lt_of_le_of_lt (length_le_utf8ByteSize s) h.2)
  · exact parseInt_range _

/-! ## The ids of the entries read -/

theorem wrapInt_range (x : Int) : minInt ≤ wrapInt x ∧ wrapInt x ≤ maxInt := by
  simp only [wrapInt, minInt, maxInt]; omega

theorem wrapInt_eq (x : Int) (hlo : minInt ≤ x) (hhi : x ≤ maxInt) : wrapInt x = x := by
  simp only [wrapInt, minInt, maxInt] at *; omega

theorem nextID_range (entries : List LogEntry) :
    minInt ≤ nextID entries ∧ nextID entries ≤ maxInt := by
  unfold nextID
  split
  · exact wrapInt_range _
  · simp [minInt, maxInt]

theorem maxID_foldl_ge (entries : List LogEntry) (m : Int) :
    m ≤ entries.foldl (fun m e => if e.ID > m then e.ID else m) m ∧
      ∀ e ∈ entries, e.ID ≤ entries.foldl (fun m e => if e.ID > m then e.ID else m) m := by
  induction entries generalizing m with
  | nil => simp
  | cons x xs ih =>
    obtain ⟨h1, h2⟩ := ih (if x.ID > m then x.ID else m)
    simp only [List.foldl_cons, List.mem_cons, forall_eq_or_imp]
    by_cases hx : x.ID > m
    · simp only [hx, if_true] at h1 h2 ⊢
      exact ⟨by omega, h1, h2⟩
    · simp only [hx, if_false] at h1 h2 ⊢
      exact ⟨h1, by omega, h2⟩

theorem maxID_foldl_le (entries : List LogEntry) (m bound : Int) (hm : m ≤ bound)
    (h : ∀ e ∈ entries, e.ID ≤ bound) :
    entries.foldl (fun m e => if e.ID > m then e.ID else m) m ≤ bound := by
  induction entries generalizing m with
  | nil => simpa using hm
  | cons x xs ih =>
    simp only [List.mem_cons, forall_eq_or_imp] at h
    simp only [List.foldl_cons]
    apply ih _ _ h.2
    split <;> omega

theorem maxID_foldl_mem (entries : List LogEntry) (m : Int) :
    entries.foldl (fun m e => if e.ID > m then e.ID else m) m = m ∨
      ∃ e ∈ entries, e.ID = entries.foldl (fun m e => if e.ID > m then e.ID else m) m := by
  induction entries generalizing m with
  | nil => exact Or.inl rfl
  | cons x xs ih =>
    simp only [List.foldl_cons, List.mem_cons, exists_eq_or_imp]
    by_cases hx : x.ID > m
    · simp only [hx, if_true]
      rcases ih x.ID with h | ⟨e, he, h⟩
      · exact Or.inr (Or.inl h.symm)
      · exact Or.inr (Or.inr ⟨e, he, h⟩)
    · simp only [hx, if_false]
      rcases ih m with h | ⟨e, he, h⟩
      · exact Or.inl h
      · exact Or.inr (Or.inr ⟨e, he, h⟩)

theorem maxID_nonneg (entries : List LogEntry) : 0 ≤ maxID entries :=
  (maxID_foldl_ge entries 0).1

theorem le_maxID (entries : List LogEntry) (e : LogEntry) (he : e ∈ entries) :
    e.ID ≤ maxID entries :=
  (maxID_foldl_ge entries 0).2 e he

theorem maxID_le_maxInt (entries : List LogEntry) (h : ∀ e ∈ entries, e.ID ≤ maxInt) :
    maxID entries ≤ maxInt :=
  maxID_foldl_le entries 0 maxInt (by simp [maxInt]) h

/-- Unless the counter wraps, the next id is above every id read. -/
theorem lt_nextID (entries : List LogEntry) (h : ∀ e ∈ entries, e.ID ≤ maxInt)
    (hw : nextID entries ≠ minInt) : ∀ e ∈ entries, e.ID < nextID entries := by
  intro e he
  have h1 := le_maxID entries e he
  have h2 := maxID_le_maxInt entries h
  have h3 := maxID_nonneg entries
  have hpos : entries.length > 0 := List.length_pos_of_mem he
  simp only [nextID, hpos, if_true] at hw ⊢
  simp only [wrapInt, minInt, maxInt] at *
  omega

theorem readAllEntries_ID_range (tl : TimeLib) (d : Disk) (entries : List LogEntry)
    (h : readAllEntries tl d = Except.ok entries) :
    ∀ e ∈ entries, minInt ≤ e.ID ∧ e.ID ≤ maxInt := by
  cases d with
  | none => simp [readAllEntries] at h
  | some content =>
    simp only [readAllEntries] at h
    split at h
    · simp at h
    · simp only [Except.ok.injEq] at h
      subst h
      intro e he
      simp only [entriesOfRecords, List.mem_filterMap] at he
      obtain ⟨r, _, hr⟩ := he
      split at hr
      · simp at hr
      · simp only [Option.some.injEq] at hr
        subst hr
        exact Atoi_range _

/-! ## The store after `AddEntry` and `ClearEntries` -/

theorem wellFormed_iff (d : Disk) :
    wellFormed d = true ↔ ∃ content hdr rows, d = some content ∧
      content.getLast? = some '\n' ∧ csvReadAll content = Except.ok (hdr :: rows) ∧
      hdr.length = 8 := by
  cases d with
  | none => simp [wellFormed]
  | some content =>
    simp only [wellFormed, Bool.and_eq_true, decide_eq_true_eq, Option.some.injEq]
    constructor
    · rintro ⟨h1, h2⟩
      split at h2
      · rename_i hdr rows hr
        exact ⟨content, hdr, rows, rfl, h1, hr, by simpa using h2⟩
      · simp at h2
    · rintro ⟨c, hdr, rows, rfl, h1, h2, h3⟩
      refine ⟨h1, ?_⟩
      rw [h2]; simpa using h3

theorem entryOfRecord_written (tl : TimeLib) (now : Time) (id : Int) (datetime : Time)
    (transaction name value source location : String) (hlo : minInt ≤ id) (hhi : id ≤ maxInt) :
    entryOfRecord tl
        ((recordOf tl now id datetime transaction name value source location).map readBack) =
      entryWritten tl now id datetime transaction name value source location := by
  simp [entryOfRecord, recordOf, entryWritten, readBack_Itoa, Atoi_Itoa id hlo hhi]

theorem entriesOfRecords_append (tl : TimeLib) (hdr : List String) (rows : List (List String))
    (r : List String) (hr : r.length = 8) :
    entriesOfRecords tl ((hdr :: rows) ++ [r]) =
      entriesOfRecords tl (hdr :: rows) ++ [entryOfRecord tl r] := by
  simp [entriesOfRecords, List.filterMap_append, hr]

theorem readAllEntries_some (tl : TimeLib) (content : List Char) (records : List (List String))
    (h : csvReadAll content = Except.ok records) :
    readAllEntries tl (some content) = Except.ok (entriesOfRecords tl records) := by
  simp [readAllEntries, h]

theorem AddEntry_ok (tl : TimeLib) (now : Time) (d : Disk) (datetime : Time)
    (transaction name value source location : String) (id : Int) (d1 : Disk)
    (h : AddEntry tl now d datetime transaction name value source location = Except.ok (id, d1)) :
    ∃ content entries, d = some content ∧ readAllEntries tl d = Except.ok entries ∧
      id = nextID entries ∧
      d1 = some (content ++
        csvWrite (recordOf tl now id datetime transaction name value source location)) := by
  unfold AddEntry at h
  split at h
  · simp at h
  · rename_i entries hr
    split at h
    · simp at h
    · rename_i content
      simp only [Except.ok.injEq, Prod.mk.injEq] at h
      obtain ⟨rfl, rfl⟩ := h
      exact ⟨content, entries, rfl, hr, rfl, rfl⟩

/-- On a well-formed store `AddEntry` succeeds, returns the next id, leaves a
well-formed store, and what is read afterwards is what was read before followed
by the one entry written. -/
theorem AddEntry_wellFormed (tl : TimeLib) (now : Time) (d : Disk) (datetime : Time)
    (transaction name value source location : String) (hwf : wellFormed d = true) :
    ∃ entries d1, readAllEntries tl d = Except.ok entries ∧
      AddEntry tl now d datetime transaction name value source location =
        Except.ok (nextID entries, d1) ∧
      wellFormed d1 = true ∧
      readAllEntries tl d1 = Except.ok (entries ++
        [entryWritten tl now (nextID entries) datetime transaction name value source location]) := by
  obtain ⟨content, hdr, rows, rfl, hnl, hread, hlen⟩ := (wellFormed_iff d).1 hwf
  have hrd := readAllEntries_some tl content _ hread
  let entries := entriesOfRecords tl (hdr :: rows)
  let rec0 := recordOf tl now (nextID entries) datetime transaction name value source location
  have happ := csvReadAll_append content (hdr :: rows) rec0 hnl hread (by simp [rec0, recordOf])
    (by simp [fitsRecords, rec0, recordOf, hlen])
  refine ⟨entries, some (content ++ csvWrite rec0), hrd, ?_, ?_, ?_⟩
  · simp [AddEntry, hrd, entries, rec0]
  · rw [wellFormed_iff]
    exact ⟨_, hdr, rows ++ [rec0.map readBack], rfl, by simp [csvWrite], by simpa using happ, hlen⟩
  · rw [readAllEntries_some tl _ _ happ, entriesOfRecords_append tl hdr rows _
      (by simp [rec0, recordOf])]
    obtain ⟨hlo, hhi⟩ := nextID_range entries
    rw [entryOfRecord_written tl now _ datetime transaction name value source location hlo hhi]

theorem wellFormed_ClearEntries (d : Disk) : wellFormed (ClearEntries d) = true := by
  show wellFormed (some (csvWrite headers)) = true
  set_option maxRecDepth 100000 in decide

theorem readAllEntries_ClearEntries (tl : TimeLib) (d : Disk) :
    readAllEntries tl (ClearEntries d) = Except.ok [] := by
  have h : csvReadAll (csvWrite headers) = Except.ok [headers] := by
    set_option maxRecDepth 100000 in rfl
  simp [ClearEntries, readAllEntries, h, entriesOfRecords]

theorem readAllEntries_of_wellFormed (tl : TimeLib) (d : Disk) (h : wellFormed d = true) :
    ∃ entries, readAllEntries tl d = Except.ok entries := by
  obtain ⟨content, hdr, rows, rfl, _, hread, _⟩ := (wellFormed_iff d).1 h
  exact ⟨_, readAllEntries_some tl content _ hread⟩

theorem started_of_wellFormed (d : Disk) (h : wellFormed d = true) : Started d := by
  obtain ⟨content, hdr, rows, rfl, hnl, hread, hlen⟩ := (wellFormed_iff d).1 h
  refine ⟨content, rfl, hnl, fun records hr => ?_⟩
  rw [hread] at hr
  simp only [Except.ok.injEq] at hr
  exact ⟨hdr, rows, hr.symm, by omega⟩

theorem started_NewLogger (d : Disk) (content : List Char) (h : NewLogger d = some content)
    (hnl : content.getLast? = some '\n') : Started (NewLogger d) := by
  have hnew : Started createNewFile :=
    started_of_wellFormed _ (wellFormed_ClearEntries none)
  cases d with
  | none => exact hnew
  | some c =>
    unfold NewLogger initFile at h ⊢
    cases hr : csvRead c with
    | error e => simp only [hr]; exact hnew
    | ok hs =>
      simp only [hr] at h ⊢
      split
      · exact hnew
      · rename_i hgood
        rw [if_neg hgood] at h
        simp only [Option.some.injEq] at h
        subst h
        simp only [Bool.or_eq_true, decide_eq_true_eq, not_or, not_lt] at hgood
        refine ⟨c, rfl, hnl, fun records hrec => ?_⟩
        obtain ⟨rows, hrows⟩ := csvReadAll_head c hs records hr hrec
        exact ⟨hs, rows, hrows, hgood.1⟩

/-- `AddEntry` on a started store: when it succeeds the store stays started,
and if the file can be read afterwards, what is read is what was read before
followed by the entry written. -/
theorem AddEntry_started (tl : TimeLib) (now : Time) (d : Disk) (datetime : Time)
    (transaction name value source location : String) (id : Int) (d1 : Disk)
    (hst : Started d)
    (hadd : AddEntry tl now d datetime transaction name value source location =
      Except.ok (id, d1)) :
    Started d1 ∧ ∃ entries, readAllEntries tl d = Except.ok entries ∧ id = nextID entries ∧
      ∀ es1, readAllEntries tl d1 = Except.ok es1 →
        es1 = entries ++
          [entryWritten tl now id datetime transaction name value source location] := by
  obtain ⟨content, hd, hnl, hhdr⟩ := hst
  obtain ⟨content', entries, hd', hread, hid, hd1⟩ := AddEntry_ok _ _ _ _ _ _ _ _ _ _ _ hadd
  rw [hd] at hd'
  simp only [Option.some.injEq] at hd'
  subst hd' hd
  have hcsv : ∃ records, csvReadAll content = Except.ok records ∧
      entries = entriesOfRecords tl records := by
    simp only [readAllEntries] at hread
    cases hr : csvReadAll content with
    | error e => rw [hr] at hread; simp at hread
    | ok records =>
      rw [hr] at hread
      simp only [Except.ok.injEq] at hread
      exact ⟨records, rfl, hread.symm⟩
  obtain ⟨records, hrec, hent⟩ := hcsv
  obtain ⟨hdr, rows, hrows, hlen⟩ := hhdr records hrec
  subst hrows
  have hrow : (recordOf tl now id datetime transaction name value source location).length = 8 := by
    simp [recordOf]
  have hnl1 : (content ++ csvWrite
      (recordOf tl now id datetime transaction name value source location)).getLast? =
      some '\n' := by simp [csvWrite]
  by_cases h8 : hdr.length = 8
  · have happ := csvReadAll_append content (hdr :: rows) _ hnl hrec (by rw [hrow]; decide)
      (by simp [fitsRecords, hrow, h8])
    refine ⟨⟨_, hd1, hnl1, fun records1 hr1 => ?_⟩, entries, hread, hid, fun es1 hes1 => ?_⟩
    · rw [happ] at hr1
      simp only [Except.ok.injEq] at hr1
      exact ⟨hdr, rows ++ [_], by rw [← hr1]; rfl, hlen⟩
    · rw [hd1, readAllEntries_some tl _ _ happ, entriesOfRecords_append tl hdr rows _
        (by simp [recordOf])] at hes1
      simp only [Except.ok.injEq] at hes1
      obtain ⟨hlo, hhi⟩ := nextID_range entries
      rw [← hid] at hlo hhi
      rw [entryOfRecord_written tl now id datetime transaction name value source location hlo hhi,
        ← hent] at hes1
      exact hes1.symm
  · have hmis := csvReadAll_append_misfit content hdr rows _ hnl hrec (by rw [hrow]; decide)
      (by rw [hrow]; exact fun h => h8 h.symm)
    refine ⟨⟨_, hd1, hnl1, fun records1 hr1 => ?_⟩, entries, hread, hid, fun es1 hes1 => ?_⟩
    · rw [hmis] at hr1; simp at hr1
    · rw [hd1] at hes1
      simp [readAllEntries, hmis] at hes1

/-! ## The loop of `GetLocationForSource` -/

theorem isLocationOf_iff (source : String) (e : LogEntry) :
    isLocationOf source e = true ↔ Declares source e := by
  simp [isLocationOf, Declares, and_assoc]

theorem After_trans (a b c : Time) (h1 : a.After b = true) (h2 : b.After c = true) :
    a.After c = true := by
  simp only [Time.After, Bool.or_eq_true, Bool.and_eq_true, decide_eq_true_eq] at *
  omega

theorem After_of_not_After (a b c : Time) (h1 : a.After b = true) (h2 : ¬ c.After b = true) :
    a.After c = true := by
  simp only [Time.After, Bool.or_eq_true, Bool.and_eq_true, decide_eq_true_eq] at *
  omega

theorem mostRecentLocation_cons (source : String) (x : LogEntry) (rest : List LogEntry) :
    mostRecentLocation source (x :: rest) =
      locationStep source (mostRecentLocation source rest) x := by
  simp [mostRecentLocation, List.foldl_append]

theorem mostRecentLocation_none (source : String) (entries : List LogEntry) :
    mostRecentLocation source entries = none ↔ ∀ e ∈ entries, ¬ Declares source e := by
  induction entries with
  | nil => simp [mostRecentLocation]
  | cons x rest ih =>
    rw [mostRecentLocation_cons, locationStep.eq_def]
    by_cases hx : isLocationOf source x = true
    · have hd := (isLocationOf_iff source x).1 hx
      simp only [hx, if_true]
      constructor
      · intro h
        split at h
        · simp at h
        · split at h <;> simp at h
      · intro h
        exact absurd hd (h x (List.mem_cons_self _ _))
    · have hd : ¬ Declares source x := fun h => hx ((isLocationOf_iff source x).2 h)
      simp only [hx, Bool.false_eq_true, if_false, ih, List.mem_cons, forall_eq_or_imp, hd, not_false_eq_true,
        true_and]

/-- The entry the loop of `GetLocationForSource` ends on: a location entry of the
source such that no location entry stored before it has a later `CreatedAt` and
every location entry stored after it has an earlier one. -/
theorem mostRecentLocation_some (source : String) (entries : List LogEntry) (m : LogEntry)
    (h : mostRecentLocation source entries = some m) :
    ∃ pre post, entries = pre ++ m :: post ∧ Declares source m ∧
      (∀ c ∈ pre, Declares source c → ¬ c.CreatedAt.After m.CreatedAt = true) ∧
      (∀ c ∈ post, Declares source c → m.CreatedAt.After c.CreatedAt = true) := by
  induction entries generalizing m with
  | nil => simp [mostRecentLocation] at h
  | cons x rest ih =>
    rw [mostRecentLocation_cons, locationStep.eq_def] at h
    by_cases hx : isLocationOf source x = true
    · have hd := (isLocationOf_iff source x).1 hx
      simp only [hx, if_true] at h
      cases hr : mostRecentLocation source rest with
      | none =>
        rw [hr] at h
        simp only [Option.some.injEq] at h
        subst h
        refine ⟨[], rest, rfl, hd, by simp, ?_⟩
        intro c hc hdc
        exact absurd hdc ((mostRecentLocation_none source rest).1 hr c hc)
      | some m0 =>
        rw [hr] at h
        obtain ⟨pre, post, hdec, hm0, hpre, hpost⟩ := ih m0 hr
        by_cases ha : x.CreatedAt.After m0.CreatedAt = true
        · simp only [ha, if_true, Option.some.injEq] at h
          subst h
          refine ⟨[], rest, rfl, hd, by simp, ?_⟩
          intro c hc hdc
          rw [hdec] at hc
          rcases List.mem_append.1 hc with hc | hc
          · exact After_of_not_After _ _ _ ha (hpre c hc hdc)
          · rcases List.mem_cons.1 hc with hc | hc
            · rw [hc]; exact ha
            · exact After_trans _ _ _ ha (hpost c hc hdc)
        · simp only [ha, Bool.false_eq_true, if_false, Option.some.injEq] at h
          subst h
          refine ⟨x :: pre, post, by rw [hdec]; rfl, hm0, ?_, hpost⟩
          intro c hc hdc
          rcases List.mem_cons.1 hc with hc | hc
          · rw [hc]; exact ha
          · exact hpre c hc hdc
    · have hd : ¬ Declares source x := fun h => hx ((isLocationOf_iff source x).2 h)
      simp only [hx, Bool.false_eq_true, if_false] at h
      obtain ⟨pre, post, hdec, hm0, hpre, hpost⟩ := ih m h
      refine ⟨x :: pre, post, by rw [hdec]; rfl, hm0, ?_, hpost⟩
      intro c hc hdc
      rcases List.mem_cons.1 hc with hc | hc
      · rw [hc] at hdc; exact absurd hdc hd
      · exact hpre c hc hdc

/-- The loop of `GetLocationForSource` does not look at `Datetime`. -/
theorem mostRecentLocation_datetime (source : String) (entries : List LogEntry)
    (f : LogEntry → Time) :
    mostRecentLocation source (entries.map (fun e => { e with Datetime := f e })) =
      (mostRecentLocation source entries).map (fun e => { e with Datetime := f e }) := by
  induction entries with
  | nil => simp [mostRecentLocation]
  | cons x rest ih =>
    rw [List.map_cons, mostRecentLocation_cons, mostRecentLocation_cons, ih]
    simp only [locationStep, isLocationOf]
    split
    · cases mostRecentLocation source rest with
      | none => rfl
      | some m =>
        simp only [Option.map_some']
        split <;> rfl
    · rfl

theorem GetLocationForSource_ok (tl : TimeLib) (d : Disk) (source : String)
    (entries : List LogEntry) (h : readAllEntries tl d = Except.ok entries) :
    GetLocationForSource tl d source =
      match mostRecentLocation source entries with
      | some m => (m.Value, true)
      | none => ("", false) := by
  unfold GetLocationForSource
  rw [h]

theorem GetLocationForSource_not_found (tl : TimeLib) (d : Disk) (source : String)
    (h : (GetLocationForSource tl d source).2 = false) :
    (GetLocationForSource tl d source).1 = "" := by
  cases hr : readAllEntries tl d with
  | error e => simp [GetLocationForSource, hr]
  | ok entries =>
    rw [GetLocationForSource_ok tl d source entries hr] at h ⊢
    cases hm : mostRecentLocation source entries with
    | none => rfl
    | some m => rw [hm] at h; simp at h

theorem GetLocationForSource_none (tl : TimeLib) (d : Disk) (source : String)
    (entries : List LogEntry) (hread : readAllEntries tl d = Except.ok entries)
    (h : ∀ e ∈ entries, ¬ Declares source e) :
    GetLocationForSource tl d source = ("", false) := by
  rw [GetLocationForSource_ok tl d source entries hread,
    (mostRecentLocation_none source entries).2 h]

theorem foldl_locationStep_keep (source : String) (x : LogEntry) (l : List LogEntry)
    (h : ∀ e ∈ l, Declares source e → ¬ e.CreatedAt.After x.CreatedAt = true) :
    l.foldl (locationStep source) (some x) = some x := by
  induction l with
  | nil => rfl
  | cons e rest ih =>
    simp only [List.mem_cons, forall_eq_or_imp] at h
    have he : locationStep source (some x) e = some x := by
      unfold locationStep
      by_cases hd : isLocationOf source e = true
      · have := h.1 ((isLocationOf_iff source e).1 hd)
        simp [hd, this]
      · simp [hd]
    rw [List.foldl_cons, he]
    exact ih h.2

/-- A location entry appended last is the most recent one unless an entry
stored before it has a later CreatedAt. -/
theorem mostRecentLocation_append (source : String) (entries : List LogEntry) (x : LogEntry)
    (hx : Declares source x)
    (h : ∀ e ∈ entries, Declares source e → ¬ e.CreatedAt.After x.CreatedAt = true) :
    mostRecentLocation source (entries ++ [x]) = some x := by
  have hs : locationStep source none x = some x := by
    simp [locationStep, (isLocationOf_iff source x).2 hx]
  unfold mostRecentLocation
  rw [List.reverse_append, List.reverse_singleton, List.singleton_append, List.foldl_cons, hs]
  exact foldl_locationStep_keep source x _ (fun e he => h e (List.mem_reverse.1 he))

/-! ## C1: id monotonicity -/

theorem runOps_add (tl : TimeLib) (d : Disk) (now datetime : Time)
    (transaction name value source location : String) (rest : List Op) (id : Int) (d1 : Disk)
    (h : AddEntry tl now d datetime transaction name value source location = Except.ok (id, d1)) :
    runOps tl d (Op.add now datetime transaction name value source location :: rest) =
      match runOps tl d1 rest with
      | none => none
      | some (trace, d2) => some (Event.added id :: trace, d2) := by
  simp [runOps, h]

theorem runOps_clear (tl : TimeLib) (d : Disk) (rest : List Op) :
    runOps tl d (Op.clear :: rest) =
      match runOps tl (ClearEntries d) rest with
      | none => none
      | some (trace, d2) => some (Event.cleared :: trace, d2) := by
  simp [runOps]

/-- On a well-formed store every call of a sequence succeeds. -/
theorem runOps_wellFormed (tl : TimeLib) (ops : List Op) (d : Disk) (hwf : wellFormed d = true) :
    ∃ trace d1, runOps tl d ops = some (trace, d1) := by
  induction ops generalizing d with
  | nil => exact ⟨[], d, rfl⟩
  | cons op rest ih =>
    cases op with
    | add now datetime transaction name value source location =>
      obtain ⟨entries, d1, _, hadd, hwf1, _⟩ :=
        AddEntry_wellFormed tl now d datetime transaction name value source location hwf
      obtain ⟨trace, d2, h⟩ := ih d1 hwf1
      exact ⟨_, d2, by rw [runOps_add tl d _ _ _ _ _ _ _ rest _ d1 hadd, h]⟩
    | clear =>
      obtain ⟨trace, d2, h⟩ := ih _ (wellFormed_ClearEntries d)
      exact ⟨_, d2, by rw [runOps_clear, h]⟩

/-- The induction behind id monotonicity: the ids a sequence of successful calls
returns, set against ids known to be in the store when the sequence starts. -/
theorem runOps_ids (tl : TimeLib) (ops : List Op) (d : Disk) (live : List Int)
    (trace : List Event) (d' : Disk) (hst : Started d)
    (hlive : ∀ es, readAllEntries tl d = Except.ok es → ∀ a ∈ live, ∃ e ∈ es, e.ID = a)
    (hrun : runOps tl d ops = some (trace, d'))
    (hwrap : Event.added minInt ∉ trace) :
    (∀ mid post b, trace = mid ++ Event.added b :: post → Event.cleared ∉ mid →
        ∀ a ∈ live, a < b) ∧
    (readAllEntries tl d = Except.ok [] → ∀ mid post b,
        trace = mid ++ Event.added b :: post → (∀ x ∈ mid, x = Event.cleared) → b = 1) ∧
    IdsIncrease trace := by
  induction ops generalizing d live trace with
  | nil =>
    simp only [runOps, Option.some.injEq, Prod.mk.injEq] at hrun
    obtain ⟨rfl, _⟩ := hrun
    refine ⟨?_, ?_, ?_, ?_⟩ <;> intros <;> simp_all
  | cons op rest ih =>
    cases op with
    | add now datetime transaction name value source location =>
      cases hadd : AddEntry tl now d datetime transaction name value source location with
      | error e => simp [runOps, hadd] at hrun
      | ok p =>
        obtain ⟨id, d1⟩ := p
        rw [runOps_add tl d _ _ _ _ _ _ _ rest id d1 hadd] at hrun
        cases hr : runOps tl d1 rest with
        | none => rw [hr] at hrun; simp at hrun
        | some q =>
          obtain ⟨trace1, d2⟩ := q
          rw [hr] at hrun
          simp only [Option.some.injEq, Prod.mk.injEq] at hrun
          obtain ⟨rfl, rfl⟩ := hrun
          obtain ⟨hst1, entries, hread, hid, hafter⟩ :=
            AddEntry_started tl now d datetime transaction name value source location id d1
              hst hadd
          have hw1 : Event.added minInt ∉ trace1 := fun h => hwrap (List.mem_cons_of_mem _ h)
          have hidw : nextID entries ≠ minInt := by
            intro h; apply hwrap; rw [hid, h]; exact List.mem_cons_self _ _
          have hgt := lt_nextID entries
            (fun e he => (readAllEntries_ID_range tl d entries hread e he).2) hidw
          have hlive1 : ∀ es, readAllEntries tl d1 = Except.ok es →
              ∀ a ∈ id :: live, ∃ e ∈ es, e.ID = a := by
            intro es hes a ha
            rw [hafter es hes]
            rcases List.mem_cons.1 ha with ha | ha
            · exact ⟨_, List.mem_append_right _ (List.mem_singleton_self _), by rw [ha]; rfl⟩
            · obtain ⟨e, he, hea⟩ := hlive entries hread a ha
              exact ⟨e, List.mem_append_left _ he, hea⟩
          obtain ⟨A1, _, C1⟩ := ih d1 (id :: live) trace1 hst1 hlive1 hr hw1
          have hA : ∀ mid post b, Event.added id :: trace1 = mid ++ Event.added b :: post →
              Event.cleared ∉ mid → ∀ a ∈ live, a < b := by
            intro mid post b hdec hmid a ha
            cases mid with
            | nil =>
              simp only [List.nil_append, List.cons.injEq, Event.added.injEq] at hdec
              obtain ⟨e, he, hea⟩ := hlive entries hread a ha
              rw [← hdec.1, ← hea, hid]; exact hgt e he
            | cons x mid' =>
              simp only [List.cons_append, List.cons.injEq] at hdec
              exact A1 mid' post b hdec.2 (fun h => hmid (List.mem_cons_of_mem _ h)) a
                (List.mem_cons_of_mem _ ha)
          refine ⟨hA, ?_, ?_, ?_⟩
          · intro hnil mid post b hdec hmid
            rw [hread] at hnil
            simp only [Except.ok.injEq] at hnil
            cases mid with
            | nil =>
              simp only [List.nil_append, List.cons.injEq, Event.added.injEq] at hdec
              rw [← hdec.1, hid, hnil]; rfl
            | cons x mid' =>
              simp only [List.cons_append, List.cons.injEq] at hdec
              have := hmid x (List.mem_cons_self _ _)
              rw [← hdec.1] at this
              exact absurd this (by simp)
          · intro pre mid post a b hdec hmid
            cases pre with
            | nil =>
              simp only [List.nil_append, List.cons.injEq, Event.added.injEq] at hdec
              have := A1 mid post b hdec.2 hmid id (List.mem_cons_self _ _)
              rw [← hdec.1]; exact this
            | cons x pre' =>
              simp only [List.cons_append, List.cons.injEq] at hdec
              exact C1.1 pre' mid post a b hdec.2 hmid
          · intro pre mid post b hdec hmid
            cases pre with
            | nil => simp at hdec
            | cons x pre' =>
              simp only [List.cons_append, List.cons.injEq] at hdec
              exact C1.2 pre' mid post b hdec.2 hmid
    | clear =>
      rw [runOps_clear] at hrun
      cases hr : runOps tl (ClearEntries d) rest with
      | none => rw [hr] at hrun; simp at hrun
      | some p =>
        obtain ⟨trace1, d2⟩ := p
        rw [hr] at hrun
        simp only [Option.some.injEq, Prod.mk.injEq] at hrun
        obtain ⟨rfl, rfl⟩ := hrun
        have hw1 : Event.added minInt ∉ trace1 := fun h => hwrap (List.mem_cons_of_mem _ h)
        obtain ⟨_, B1, C1⟩ := ih (ClearEntries d) [] trace1
          (started_of_wellFormed _ (wellFormed_ClearEntries d))
          (fun _ _ a ha => absurd ha (List.not_mem_nil a)) hr hw1
        have B1' := B1 (readAllEntries_ClearEntries tl d)
        have hB : ∀ mid post b, Event.cleared :: trace1 = mid ++ Event.added b :: post →
            (∀ x ∈ mid, x = Event.cleared) → b = 1 := by
          intro mid post b hdec hmid
          cases mid with
          | nil => simp at hdec
          | cons x mid' =>
            simp only [List.cons_append, List.cons.injEq] at hdec
            exact B1' mid' post b hdec.2 (fun y hy => hmid y (List.mem_cons_of_mem _ hy))
        refine ⟨?_, fun _ => hB, ?_, ?_⟩
        · intro mid post b hdec hmid
          cases mid with
          | nil => simp at hdec
          | cons x mid' =>
            simp only [List.cons_append, List.cons.injEq] at hdec
            exact absurd (by rw [← hdec.1]; exact List.mem_cons_self _ _) hmid
        · intro pre mid post a b hdec hmid
          cases pre with
          | nil => simp at hdec
          | cons x pre' =>
            simp only [List.cons_append, List.cons.injEq] at hdec
            exact C1.1 pre' mid post a b hdec.2 hmid
        · intro pre mid post b hdec hmid
          cases pre with
          | nil =>
            simp only [List.nil_append, List.cons.injEq, true_and] at hdec
            exact B1' mid post b hdec hmid
          | cons x pre' =>
            simp only [List.cons_append, List.cons.injEq] at hdec
            exact C1.2 pre' mid post b hdec.2 hmid

/-- C1 (as amended): starting from an initialised store whose file ends in a
newline, for every sequence of successful `AddEntry` and `ClearEntries` calls in
which the id counter does not wrap around (no call returns the smallest `int`),
each id returned by `AddEntry` is strictly greater than every id returned by an
earlier `AddEntry` of the sequence with no `ClearEntries` between the two calls,
and the first `AddEntry` after a `ClearEntries` returns 1. -/
theorem ids_increase_until_wrap (tl : TimeLib) (d : Disk) (ops : List Op)
    (trace : List Event) (d' : Disk)
    (hnl : ∃ content, NewLogger d = some content ∧ content.getLast? = some '\n')
    (hrun : runOps tl (NewLogger d) ops = some (trace, d'))
    (hwrap : Event.added minInt ∉ trace) : IdsIncrease trace := by
  obtain ⟨content, hc, hnl⟩ := hnl
  exact (runOps_ids tl ops (NewLogger d) [] trace d' (started_NewLogger d content hc hnl)
    (fun _ _ a ha => absurd ha (List.not_mem_nil a)) hrun hwrap).2.2

set_option maxRecDepth 1000000 in
/-- C1, witness: a new store, then `AddEntry`, `ClearEntries`, `AddEntry`, which
return 1 and 1. -/
theorem ids_increase_until_wrap_witness :
    (∃ content, NewLogger none = some content ∧ content.getLast? = some '\n') ∧
      (runOps rfc3339 (NewLogger none) addClearAdd).map Prod.fst =
        some [Event.added 1, Event.cleared, Event.added 1] ∧
      Event.added minInt ∉ [Event.added 1, Event.cleared, Event.added 1] ∧
      IdsIncrease [Event.added 1, Event.cleared, Event.added 1] :=
  ⟨⟨_, rfl, by decide⟩, by rfl, by decide,
    ids_increase_until_wrap rfc3339 none addClearAdd _ _ ⟨_, rfl, by decide⟩ (by rfl)
      (by decide)⟩

set_option maxRecDepth 1000000 in
/-- C1, counterexample: on an initialised store that holds a row with the largest
`int` as id, two successive calls of `AddEntry` both succeed and both return the
smallest `int`, so the second id is not greater than the first. -/
theorem ids_repeat_after_wrap :
    NewLogger (some maxIdStore) = some maxIdStore ∧
      ∃ d', runOps rfc3339 (NewLogger (some maxIdStore)) twoAdds =
          some ([Event.added (-9223372036854775808), Event.added (-9223372036854775808)], d') ∧
        ¬ IdsIncrease [Event.added (-9223372036854775808), Event.added (-9223372036854775808)] := by
  refine ⟨by decide, _, by rfl, ?_⟩
  intro h
  have := h.1 [] [] [] _ _ rfl (by simp)
  omega

/-! ## C2: read your write -/

theorem matchesFilter_none (e : LogEntry) : matchesFilter "" "" e = true := by
  simp [matchesFilter]

theorem paginate_all (l : List LogEntry) (limit : Int) (hne : l ≠ [])
    (hlo : (l.length : Int) ≤ limit) (hhi : limit ≤ maxInt) :
    paginate l limit 0 = Result.ok (l, (l.length : Int)) := by
  have hpos : 0 < l.length := List.length_pos.2 hne
  have hw : wrapInt (0 + limit) = limit := by
    rw [Int.zero_add]
    exact wrapInt_eq _ (by simp only [minInt]; omega) hhi
  have h1 : ¬ (0 : Int) ≥ (l.length : Int) := by omega
  simp only [paginate, h1, if_false, hw]
  by_cases h2 : limit > (l.length : Int)
  · simp [h2]
  · have : limit = (l.length : Int) := by omega
    subst this
    simp

/-- C2 (as amended): on a store whose file is readable, has an 8-column header
and ends in a newline, `AddEntry` succeeds and returns an id `X`; unless `X` is
the wrapped-around smallest `int`, a `GetEntries` call made immediately
afterwards with empty filters, offset 0 and a limit at least the number of
stored entries returns every stored entry, among them exactly one whose ID is
`X`: the entry whose Transaction, Name, Value, Source and Location are the
submitted strings as the CSV reader reads them back (every carriage return that
stands directly before a newline removed) and whose Datetime is what
`time.Parse` makes of the `time.RFC3339` text of the submitted datetime. -/
theorem read_your_write (tl : TimeLib) (now : Time) (d : Disk) (datetime : Time)
    (transaction name value source location : String) (limit : Int)
    (hwf : wellFormed d = true) :
    ∃ entries X d1, readAllEntries tl d = Except.ok entries ∧
      AddEntry tl now d datetime transaction name value source location = Except.ok (X, d1) ∧
      (X ≠ minInt → (entries.length : Int) + 1 ≤ limit → limit ≤ maxInt →
        ∃ page, GetEntries tl d1 limit 0 "" "" = Result.ok (page, (entries.length : Int) + 1) ∧
          page = entries ++
            [entryWritten tl now X datetime transaction name value source location] ∧
          page.filter (fun e => decide (e.ID = X)) =
            [entryWritten tl now X datetime transaction name value source location]) := by
  obtain ⟨entries, d1, hread, hadd, _, hread1⟩ :=
    AddEntry_wellFormed tl now d datetime transaction name value source location hwf
  refine ⟨entries, nextID entries, d1, hread, hadd, ?_⟩
  intro hw hlo hhi
  refine ⟨_, ?_, rfl, ?_⟩
  · have hf : (entries ++ [entryWritten tl now (nextID entries) datetime transaction name value
        source location]).filter (matchesFilter "" "") = entries ++ [entryWritten tl now
        (nextID entries) datetime transaction name value source location] :=
      List.filter_eq_self.2 (fun e _ => matchesFilter_none e)
    rw [GetEntries, hread1]
    simp only [hf]
    rw [paginate_all _ limit (by simp) (by simpa using hlo) hhi]
    simp
  · have hgt := lt_nextID entries
      (fun e he => (readAllEntries_ID_range tl d entries hread e he).2) hw
    have hnone : entries.filter (fun e => decide (e.ID = nextID entries)) = [] := by
      rw [List.filter_eq_nil_iff]
      intro e he
      have := hgt e he
      simp only [decide_eq_true_eq]; omega
    rw [List.filter_append, hnone]
    simp [entryWritten]

set_option maxRecDepth 1000000 in
/-- C2, witness: an entry added to a new store. -/
theorem read_your_write_witness :
    wellFormed (NewLogger none) = true ∧
      ∃ entries X d1, readAllEntries rfc3339 (NewLogger none) = Except.ok entries ∧
        AddEntry rfc3339 ⟨1704067200, 0, 0⟩ (NewLogger none) ⟨1704067100, 0, 0⟩
          "measurement" "temp" "21.5" "dev1" "" = Except.ok (X, d1) ∧
        (X ≠ minInt → (entries.length : Int) + 1 ≤ 100 → (100 : Int) ≤ maxInt →
          ∃ page, GetEntries rfc3339 d1 100 0 "" "" =
              Result.ok (page, (entries.length : Int) + 1) ∧
            page = entries ++ [entryWritten rfc3339 ⟨1704067200, 0, 0⟩ X ⟨1704067100, 0, 0⟩
              "measurement" "temp" "21.5" "dev1" ""] ∧
            page.filter (fun e => decide (e.ID = X)) =
              [entryWritten rfc3339 ⟨1704067200, 0, 0⟩ X ⟨1704067100, 0, 0⟩
                "measurement" "temp" "21.5" "dev1" ""]) :=
  ⟨by decide, read_your_write rfc3339 ⟨1704067200, 0, 0⟩ (NewLogger none) ⟨1704067100, 0, 0⟩
    "measurement" "temp" "21.5" "dev1" "" 100 (by decide)⟩

set_option maxRecDepth 1000000 in
/-- C2, counterexample: on a new store `AddEntry` with the value `"a\r\nb"` and a
datetime 5 nanoseconds past a full second returns id 1; the `GetEntries` call
that follows returns one entry with ID 1, whose Value is `"a\nb"` and whose
Datetime is the full second: neither equals the submitted argument. -/
theorem read_back_differs :
    ∃ d1 e, AddEntry rfc3339 ⟨1704067200, 0, 0⟩ (NewLogger none) ⟨1704067100, 5, 0⟩
        "measurement" "temp" "a\r\nb" "dev1" "" = Except.ok (1, d1) ∧
      GetEntries rfc3339 d1 100 0 "" "" = Result.ok ([e], 1) ∧
      e.ID = 1 ∧ e.Value = "a\nb" ∧ e.Value ≠ "a\r\nb" ∧
      e.Datetime = ⟨1704067100, 0, 0⟩ ∧ e.Datetime ≠ ⟨1704067100, 5, 0⟩ := by
  refine ⟨_, _, by rfl, by rfl, by rfl, by rfl, by decide, by rfl, by decide⟩

/-! ## C3: filters and total -/

theorem matchesFilter_iff (source name : String) (e : LogEntry) :
    matchesFilter source name e = true ↔ Passes source name e := by
  simp only [matchesFilter, Passes, Bool.and_eq_true, Bool.not_eq_true', Bool.and_eq_false_iff,
    bne_eq_false_iff_eq, Bool.not_eq_eq_eq_not, Bool.not_true, bne_iff_ne, ne_eq]

theorem paginate_ok (l : List LogEntry) (limit offset : Int) (page : List LogEntry) (total : Int)
    (h : paginate l limit offset = Result.ok (page, total)) :
    total = (l.length : Int) ∧ ∀ e ∈ page, e ∈ l := by
  unfold paginate at h
  dsimp only at h
  split at h
  · simp only [Result.ok.injEq, Prod.mk.injEq] at h
    obtain ⟨rfl, rfl⟩ := h
    simp
  · generalize (if wrapInt (offset + limit) > (l.length : Int) then (l.length : Int)
      else wrapInt (offset + limit)) = end1 at h
    split at h
    · simp at h
    · simp only [Result.ok.injEq, Prod.mk.injEq] at h
      obtain ⟨rfl, rfl⟩ := h
      refine ⟨rfl, fun e he => ?_⟩
      exact List.mem_of_mem_drop (List.mem_of_mem_take he)

theorem GetEntries_ok (tl : TimeLib) (d : Disk) (limit offset : Int) (source name : String)
    (page : List LogEntry) (total : Int)
    (h : GetEntries tl d limit offset source name = Result.ok (page, total)) :
    ∃ entries, readAllEntries tl d = Except.ok entries ∧
      paginate (entries.filter (matchesFilter source name)) limit offset =
        Result.ok (page, total) := by
  unfold GetEntries at h
  split at h
  · simp at h
  · rename_i entries hr
    exact ⟨entries, hr, h⟩

/-- C3: whenever `GetEntries` returns, every entry of the page passes both
filters (an empty filter string is not applied), and `total` is the number of
stored entries that pass them, so it is the same for every limit and offset;
with a source filter alone every entry of the page has that Source and `total`
counts the stored entries with that Source. -/
theorem getEntries_filter (tl : TimeLib) (d : Disk) (limit offset : Int) (source name : String)
    (page : List LogEntry) (total : Int)
    (h : GetEntries tl d limit offset source name = Result.ok (page, total)) :
    ∃ entries, readAllEntries tl d = Except.ok entries ∧
      (∀ e ∈ page, Passes source name e) ∧
      total = ((entries.filter (fun e => decide (Passes source name e))).length : Int) ∧
      (∀ limit' offset' page' total',
        GetEntries tl d limit' offset' source name = Result.ok (page', total') → total' = total) ∧
      (source ≠ "" → name = "" → (∀ e ∈ page, e.Source = source) ∧
        total = ((entries.filter (fun e => decide (e.Source = source))).length : Int)) := by
  obtain ⟨entries, hread, hp⟩ := GetEntries_ok tl d limit offset source name page total h
  obtain ⟨ht, hmem⟩ := paginate_ok _ _ _ _ _ hp
  have hfilter : entries.filter (matchesFilter source name) =
      entries.filter (fun e => decide (Passes source name e)) := by
    apply List.filter_congr
    intro e _
    by_cases hpass : Passes source name e
    · simp [hpass, (matchesFilter_iff source name e).2 hpass]
    · have : matchesFilter source name e = false := by
        cases hm : matchesFilter source name e
        · rfl
        · exact absurd ((matchesFilter_iff source name e).1 hm) hpass
      simp [hpass, this]
  have hpage : ∀ e ∈ page, Passes source name e := by
    intro e he
    have := hmem e he
    rw [List.mem_filter] at this
    exact (matchesFilter_iff source name e).1 this.2
  refine ⟨entries, hread, hpage, by rw [ht, hfilter], ?_, ?_⟩
  · intro limit' offset' page' total' h'
    obtain ⟨entries', hread', hp'⟩ := GetEntries_ok tl d limit' offset' source name page' total' h'
    rw [hread] at hread'
    simp only [Except.ok.injEq] at hread'
    subst hread'
    rw [(paginate_ok _ _ _ _ _ hp').1, ht]
  · intro hs hn
    subst hn
    refine ⟨fun e he => ?_, ?_⟩
    · rcases (hpage e he).1 with h1 | h1
      · exact absurd h1 hs
      · exact h1
    · rw [ht, hfilter]
      congr 2
      apply List.filter_congr
      intro e _
      simp [Passes, hs]

set_option maxRecDepth 1000000 in
/-- C3, witness: the entries of source `dev1` in a store of three entries, one
entry to the page. -/
theorem getEntries_filter_witness :
    GetEntries rfc3339 sampleStore 1 1 "dev1" "" =
        Result.ok ([entryOfRecord rfc3339 ["2", "measurement", "2024-01-01T00:01:00Z", "temp",
          "21.5", "dev1", "kitchen", "2024-01-01T00:01:05Z"]], 2) ∧
      ∃ entries, readAllEntries rfc3339 sampleStore = Except.ok entries ∧
        (∀ e ∈ [entryOfRecord rfc3339 ["2", "measurement", "2024-01-01T00:01:00Z", "temp",
          "21.5", "dev1", "kitchen", "2024-01-01T00:01:05Z"]], Passes "dev1" "" e) ∧
        (2 : Int) = ((entries.filter (fun e => decide (Passes "dev1" "" e))).length : Int) ∧
        (∀ limit' offset' page' total',
          GetEntries rfc3339 sampleStore limit' offset' "dev1" "" = Result.ok (page', total') →
            total' = 2) ∧
        ("dev1" ≠ "" → "" = "" →
          (∀ e ∈ [entryOfRecord rfc3339 ["2", "measurement", "2024-01-01T00:01:00Z", "temp",
            "21.5", "dev1", "kitchen", "2024-01-01T00:01:05Z"]], e.Source = "dev1") ∧
          (2 : Int) = ((entries.filter (fun e => decide (e.Source = "dev1"))).length : Int)) :=
  ⟨by rfl, getEntries_filter rfc3339 sampleStore 1 1 "dev1" "" _ 2 (by rfl)⟩

/-! ## C4: pagination -/

/-- With a negative offset the slice expression of `GetEntries` panics, whatever
the store holds. -/
theorem paginate_negative_offset (l : List LogEntry) (limit offset : Int) (h : offset < 0) :
    paginate l limit offset = Result.panic := by
  have h1 : ¬ offset ≥ (l.length : Int) := by omega
  unfold paginate
  simp [h1, h]

/-- With an offset and a limit that are not negative and whose sum is an `int`,
the page is the window `[offset, offset + limit)` of the matching entries. -/
theorem paginate_window (l : List LogEntry) (limit offset : Int) (ho : 0 ≤ offset)
    (hl : 0 ≤ limit) (hsum : offset + limit ≤ maxInt) :
    paginate l limit offset =
      Result.ok ((l.drop offset.toNat).take limit.toNat, (l.length : Int)) := by
  have hw : wrapInt (offset + limit) = offset + limit :=
    wrapInt_eq _ (by simp only [minInt]; omega) hsum
  unfold paginate
  dsimp only
  rw [hw]
  by_cases h1 : offset ≥ (l.length : Int)
  · have : l.length ≤ offset.toNat := by omega
    simp [h1, List.drop_of_length_le this]
  · simp only [h1, if_false]
    by_cases h2 : offset + limit > (l.length : Int)
    · have h3 : ¬ (offset < 0 ∨ (l.length : Int) < offset) := by omega
      simp only [h2, if_true, Bool.or_eq_true, decide_eq_true_eq, h3, if_false]
      congr 2
      rw [List.take_eq_take]
      simp only [List.length_drop]
      omega
    · have h3 : ¬ (offset < 0 ∨ offset + limit < offset) := by omega
      simp only [h2, if_false, Bool.or_eq_true, decide_eq_true_eq, h3]
      congr 3
      omega

set_option maxRecDepth 1000000 in
/-- C4, the failing input: `GetEntries` with limit 100 and offset -1 (the request
`GET /log?offset=-1`) on a store of three entries does not return a page: the
slice expression `filtered[offset:end]` panics. -/
theorem getEntries_negative_offset :
    GetEntries rfc3339 sampleStore 100 (-1) "" "" = Result.panic := by
  rfl

/-! ## C5: the location stored with an entry -/

theorem respond_created (d : Disk) (r : Except Err (Int × Disk)) (id : Int) (d1 : Disk)
    (h : respond d r = (Response.created id, d1)) : r = Except.ok (id, d1) := by
  unfold respond at h
  split at h
  · simp at h
  · simp only [Prod.mk.injEq, Response.created.injEq] at h
    obtain ⟨rfl, rfl⟩ := h
    rfl

theorem accepted_AddEntry (tl : TimeLib) (now : Time) (seen d : Disk)
    (transaction name value source : String) (id : Int) (d1 : Disk)
    (h : Accepted tl now seen d transaction name value source id d1) :
    ∃ datetime, AddEntry tl now d datetime transaction name value source
      (locationFor tl seen transaction name value source) = Except.ok (id, d1) := by
  rcases h with ⟨req, h, rfl, rfl, rfl, rfl⟩ | ⟨received, q, h, rfl, rfl, rfl, rfl⟩
  · unfold addLogEntry at h
    split at h
    · simp at h
    · split at h
      · simp at h
      · split at h
        · simp at h
        · split at h
          · simp at h
          · rename_i dt _
            exact ⟨dt, respond_created _ _ _ _ h⟩
  · unfold handleQuickLog at h
    split at h
    · simp at h
    · split at h
      · simp at h
      · exact ⟨received, respond_created _ _ _ _ h⟩

/-- The location a handler stores with an accepted request, and the row it
appends. -/
theorem accepted_row (tl : TimeLib) (now : Time) (seen d : Disk)
    (transaction name value source : String) (id : Int) (d1 : Disk)
    (h : Accepted tl now seen d transaction name value source id d1) :
    ∃ content datetime location, d = some content ∧
      AddEntry tl now d datetime transaction name value source location = Except.ok (id, d1) ∧
      d1 = some (content ++
        csvWrite (recordOf tl now id datetime transaction name value source location)) ∧
      (transaction = "set_location" ∧ name = "location" → location = value) ∧
      (¬ (transaction = "set_location" ∧ name = "location") →
        location = (GetLocationForSource tl seen source).1) := by
  obtain ⟨datetime, hadd⟩ :=
    accepted_AddEntry tl now seen d transaction name value source id d1 h
  obtain ⟨content, entries, hd, _, _, hd1⟩ := AddEntry_ok _ _ _ _ _ _ _ _ _ _ _ hadd
  refine ⟨content, datetime, _, hd, hadd, hd1, ?_, ?_⟩
  · rintro ⟨h1, h2⟩
    simp [locationFor, h1, h2]
  · intro hn
    have : (transaction == "set_location" && name == "location") = false := by
      simpa [Bool.and_eq_false_iff, not_and_or] using hn
    simp [locationFor, this]

/-- C5 (as amended): for every store content and every add request accepted by
`addLogEntry` or `handleQuickLog`, the handler appends one row to the file, and
the location in that row is the request's own value when the transaction is
`set_location` and the name is `location`, and otherwise what
`GetLocationForSource(source)` returns on the store as the handler's lookup
finds it (`seen`), which is the empty string when nothing is found, in
particular when that store holds no `set_location` entry of the source.  The
lookup and the append are two calls, each under its own lock: what is looked up
is the store just before the append (`d`) when no other request has written
between the two.  On a store whose file is readable, has an 8-column header and
ends in a newline, and none of whose `set_location` entries of `dev1` carries a
CreatedAt later than the new one: after `set_location` / `location` / `kitchen`
was recorded for `dev1`, every accepted request of `dev1` that is no
`set_location` of `location` and whose lookup finds the store as that recording
left it is stored with the location `kitchen`. -/
theorem location_stored (tl : TimeLib) (now : Time) (seen d : Disk)
    (transaction name value source : String) (id : Int) (d1 : Disk)
    (h : Accepted tl now seen d transaction name value source id d1) :
    ∃ content datetime location, d = some content ∧
      d1 = some (content ++
        csvWrite (recordOf tl now id datetime transaction name value source location)) ∧
      (transaction = "set_location" ∧ name = "location" → location = value) ∧
      (¬ (transaction = "set_location" ∧ name = "location") →
        location = (GetLocationForSource tl seen source).1 ∧
        ((GetLocationForSource tl seen source).2 = false → location = "") ∧
        (∀ entries, readAllEntries tl seen = Except.ok entries →
          (∀ e ∈ entries, ¬ Declares source e) → location = "") ∧
        (seen = d → location = (GetLocationForSource tl d source).1)) ∧
      (wellFormed d = true → transaction = "set_location" → name = "location" →
        value = "kitchen" → source = "dev1" →
        (∀ entries, readAllEntries tl d = Except.ok entries → ∀ e ∈ entries,
          Declares "dev1" e → ¬ e.CreatedAt.After (createdAtRead tl now) = true) →
        ∀ now2 later transaction2 name2 value2 id2 d2,
          ¬ (transaction2 = "set_location" ∧ name2 = "location") →
          Accepted tl now2 d1 later transaction2 name2 value2 "dev1" id2 d2 →
          ∃ content2 datetime2, later = some content2 ∧
            d2 = some (content2 ++ csvWrite
              (recordOf tl now2 id2 datetime2 transaction2 name2 value2 "dev1" "kitchen"))) := by
  obtain ⟨content, datetime, location, hd, hadd, hd1, hset, hother⟩ :=
    accepted_row tl now seen d transaction name value source id d1 h
  refine ⟨content, datetime, location, hd, hd1, hset, ?_, ?_⟩
  · intro hn
    have hl := hother hn
    refine ⟨hl, ?_, ?_, ?_⟩
    · intro h2
      rw [hl]; exact GetLocationForSource_not_found tl seen source h2
    · intro entries hread hnone
      rw [hl, GetLocationForSource_none tl seen source entries hread hnone]
    · intro hsame
      rw [hl, hsame]
  · intro hwf ht hname hv hs hlater now2 later transaction2 name2 value2 id2 d2 hn2 h2
    subst ht hname hv hs
    have hloc : location = "kitchen" := hset ⟨rfl, rfl⟩
    subst hloc
    obtain ⟨entries, d1', hread, hadd', _, hread1⟩ :=
      AddEntry_wellFormed tl now d datetime "set_location" "location" "kitchen" "dev1" "kitchen"
        hwf
    rw [hadd] at hadd'
    simp only [Except.ok.injEq, Prod.mk.injEq] at hadd'
    obtain ⟨hid, hd1'⟩ := hadd'
    subst hid hd1'
    have hnew : Declares "dev1"
        (entryWritten tl now (nextID entries) datetime "set_location" "location" "kitchen" "dev1"
          "kitchen") :=
      ⟨by rfl, by rfl, by rfl⟩
    have hmr := mostRecentLocation_append "dev1" entries _ hnew (hlater entries hread)
    have hget : GetLocationForSource tl d1 "dev1" = ("kitchen", true) := by
      rw [GetLocationForSource_ok tl d1 "dev1" _ hread1, hmr]
      rfl
    obtain ⟨content2, datetime2, location2, hc2, _, hd2, _, hother2⟩ :=
      accepted_row tl now2 d1 later transaction2 name2 value2 "dev1" id2 d2 h2
    have hl2 := hother2 hn2
    rw [hget] at hl2
    subst hl2
    exact ⟨content2, datetime2, hc2, hd2⟩

set_option maxRecDepth 1000000 in
/-- C5, witness: the request `set_location` / `location` / `kitchen` of `dev1`
on a new store, and the measurement of `dev1` that follows it with no other
request in between. -/
theorem location_stored_witness :
    Accepted rfc3339 ⟨1704067200, 0, 0⟩ (NewLogger none) (NewLogger none) "set_location"
        "location" "kitchen" "dev1" 1
        (addLogEntry rfc3339 ⟨1704067200, 0, 0⟩ (NewLogger none) (NewLogger none)
          kitchenRequest).2 ∧
      wellFormed (NewLogger none) = true ∧
      Accepted rfc3339 ⟨1704067260, 0, 0⟩
        (addLogEntry rfc3339 ⟨1704067200, 0, 0⟩ (NewLogger none) (NewLogger none)
          kitchenRequest).2
        (addLogEntry rfc3339 ⟨1704067200, 0, 0⟩ (NewLogger none) (NewLogger none)
          kitchenRequest).2
        "measurement" "temp" "21.0" "dev1" 2
        (handleQuickLog rfc3339 ⟨1704067260, 0, 0⟩ ⟨1704067260, 0, 0⟩
          (addLogEntry rfc3339 ⟨1704067200, 0, 0⟩ (NewLogger none) (NewLogger none)
            kitchenRequest).2
          (addLogEntry rfc3339 ⟨1704067200, 0, 0⟩ (NewLogger none) (NewLogger none)
            kitchenRequest).2
          tempQuery).2 ∧
      ∃ content2 datetime2,
        (addLogEntry rfc3339 ⟨1704067200, 0, 0⟩ (NewLogger none) (NewLogger none)
          kitchenRequest).2 = some content2 ∧
        (handleQuickLog rfc3339 ⟨1704067260, 0, 0⟩ ⟨1704067260, 0, 0⟩
          (addLogEntry rfc3339 ⟨1704067200, 0, 0⟩ (NewLogger none) (NewLogger none)
            kitchenRequest).2
          (addLogEntry rfc3339 ⟨1704067200, 0, 0⟩ (NewLogger none) (NewLogger none)
            kitchenRequest).2
          tempQuery).2 =
          some (content2 ++ csvWrite (recordOf rfc3339 ⟨1704067260, 0, 0⟩ 2 datetime2
            "measurement" "temp" "21.0" "dev1" "kitchen")) := by
  have h1 : Accepted rfc3339 ⟨1704067200, 0, 0⟩ (NewLogger none) (NewLogger none)
      "set_location" "location" "kitchen" "dev1" 1
      (addLogEntry rfc3339 ⟨1704067200, 0, 0⟩ (NewLogger none) (NewLogger none)
        kitchenRequest).2 :=
    Or.inl ⟨kitchenRequest, by rfl, by rfl, by rfl, by rfl, by rfl⟩
  have h2 : Accepted rfc3339 ⟨1704067260, 0, 0⟩
      (addLogEntry rfc3339 ⟨1704067200, 0, 0⟩ (NewLogger none) (NewLogger none)
        kitchenRequest).2
      (addLogEntry rfc3339 ⟨1704067200, 0, 0⟩ (NewLogger none) (NewLogger none)
        kitchenRequest).2
      "measurement" "temp" "21.0" "dev1" 2
      (handleQuickLog rfc3339 ⟨1704067260, 0, 0⟩ ⟨1704067260, 0, 0⟩
        (addLogEntry rfc3339 ⟨1704067200, 0, 0⟩ (NewLogger none) (NewLogger none)
          kitchenRequest).2
        (addLogEntry rfc3339 ⟨1704067200, 0, 0⟩ (NewLogger none) (NewLogger none)
          kitchenRequest).2
        tempQuery).2 :=
    Or.inr ⟨⟨1704067260, 0, 0⟩, tempQuery, by rfl, by rfl, by rfl, by rfl, by rfl⟩
  obtain ⟨_, _, _, _, _, _, _, hk⟩ := location_stored rfc3339 ⟨1704067200, 0, 0⟩ (NewLogger none)
    (NewLogger none) "set_location" "location" "kitchen" "dev1" 1 _ h1
  have hno : ∀ entries, readAllEntries rfc3339 (NewLogger none) = Except.ok entries →
      ∀ e ∈ entries, Declares "dev1" e →
        ¬ e.CreatedAt.After (createdAtRead rfc3339 ⟨1704067200, 0, 0⟩) = true := by
    intro entries hread e he
    have : readAllEntries rfc3339 (NewLogger none) = Except.ok [] := by rfl
    rw [this] at hread
    simp only [Except.ok.injEq] at hread
    subst hread
    simp at he
  exact ⟨h1, by decide, h2,
    hk (by decide) rfl rfl rfl rfl hno ⟨1704067260, 0, 0⟩ _ "measurement" "temp" "21.0" 2 _
      (by decide) h2⟩

set_option maxRecDepth 1000000 in
/-- C5, counterexample, in two runs.  Two requests at once on a new store: the
measurement of `dev1` looks up the location before `set_location` / `location`
/ `kitchen` of `dev1` is recorded with id 1 and appends after it, with id 2; on
the store just before that append `GetLocationForSource` returns `kitchen`, and
the measurement is stored with the empty location.  One request after the
other, on a store that holds a `set_location` entry of `dev1` with the value
`garage` and a `created_at` in 2030: `set_location` / `location` / `kitchen` is
recorded for `dev1` in 2024 with id 2, and the measurement of `dev1` that
follows is stored with id 3 and the location `garage`, not `kitchen`. -/
theorem location_not_kitchen :
    (∃ d1 d2 content1,
      addLogEntry rfc3339 ⟨1704067200, 0, 0⟩ (NewLogger none) (NewLogger none) kitchenRequest =
        (Response.created 1, d1) ∧
      GetLocationForSource rfc3339 d1 "dev1" = ("kitchen", true) ∧
      handleQuickLog rfc3339 ⟨1704067200, 0, 0⟩ ⟨1704067200, 0, 0⟩ (NewLogger none) d1
        tempQuery = (Response.created 2, d2) ∧
      d1 = some content1 ∧
      d2 = some (content1 ++ csvWrite ["2", "measurement", "2024-01-01T00:00:00Z", "temp",
        "21.0", "dev1", "", "2024-01-01T00:00:00Z"])) ∧
    (∃ d1 d2 content1,
      addLogEntry rfc3339 ⟨1704067200, 0, 0⟩ futureStore futureStore kitchenRequest =
        (Response.created 2, d1) ∧
      handleQuickLog rfc3339 ⟨1704067260, 0, 0⟩ ⟨1704067260, 0, 0⟩ d1 d1 tempQuery =
        (Response.created 3, d2) ∧
      d1 = some content1 ∧
      d2 = some (content1 ++ csvWrite ["3", "measurement", "2024-01-01T00:01:00Z", "temp",
        "21.0", "dev1", "garage", "2024-01-01T00:01:00Z"])) := by
  exact ⟨⟨_, _, _, by rfl, by rfl, by rfl, by rfl, by rfl⟩,
    ⟨_, _, _, by rfl, by rfl, by rfl, by rfl⟩⟩

/-! ## C6: the location of a source -/

/-- C6: on a readable store `GetLocationForSource(s)` returns `("", false)`
exactly when no entry has Source `s`, Transaction `set_location` and Name
`location`; otherwise it returns `(v, true)` with `v` the Value of the one such
entry `m` for which no such entry stored before `m` has a later CreatedAt and
every such entry stored after `m` has an earlier CreatedAt: the greatest
CreatedAt, and among equal ones the entry appended last.  Datetime plays no
part: two stores whose entries agree in every field but Datetime give the same
answer. -/
theorem location_for_source (tl : TimeLib) (d : Disk) (source : String)
    (entries : List LogEntry) (h : readAllEntries tl d = Except.ok entries) :
    ((∀ e ∈ entries, ¬ Declares source e) ↔ GetLocationForSource tl d source = ("", false)) ∧
    ((∃ e ∈ entries, Declares source e) →
      ∃ pre m post, entries = pre ++ m :: post ∧ Declares source m ∧
        (∀ c ∈ pre, Declares source c → ¬ c.CreatedAt.After m.CreatedAt = true) ∧
        (∀ c ∈ post, Declares source c → m.CreatedAt.After c.CreatedAt = true) ∧
        GetLocationForSource tl d source = (m.Value, true)) ∧
    (∀ d' entries', readAllEntries tl d' = Except.ok entries' →
      entries'.map (fun e => { e with Datetime := Time.zero }) =
        entries.map (fun e => { e with Datetime := Time.zero }) →
      GetLocationForSource tl d' source = GetLocationForSource tl d source) := by
  rw [GetLocationForSource_ok tl d source entries h]
  refine ⟨?_, ?_, ?_⟩
  · rw [← mostRecentLocation_none]
    cases mostRecentLocation source entries <;> simp
  · rintro ⟨e, he, hde⟩
    cases hm : mostRecentLocation source entries with
    | none => exact absurd hde ((mostRecentLocation_none source entries).1 hm e he)
    | some m =>
      obtain ⟨pre, post, hdec, hdm, hpre, hpost⟩ := mostRecentLocation_some source entries m hm
      exact ⟨pre, m, post, hdec, hdm, hpre, hpost, rfl⟩
  · intro d' entries' h' hmap
    rw [GetLocationForSource_ok tl d' source entries' h']
    have h1 := mostRecentLocation_datetime source entries (fun _ => Time.zero)
    have h2 := mostRecentLocation_datetime source entries' (fun _ => Time.zero)
    rw [hmap, h1] at h2
    cases hm : mostRecentLocation source entries with
    | none =>
      rw [hm] at h2
      cases hm' : mostRecentLocation source entries' with
      | none => rfl
      | some m' => rw [hm'] at h2; simp at h2
    | some m =>
      rw [hm] at h2
      cases hm' : mostRecentLocation source entries' with
      | none => rw [hm'] at h2; simp at h2
      | some m' =>
        rw [hm'] at h2
        simp only [Option.map_some', Option.some.injEq] at h2
        have : m'.Value = m.Value := by
          have := congrArg LogEntry.Value h2
          simpa using this.symm
        simp [this]

set_option maxRecDepth 1000000 in
/-- C6, witness: source `dev1` in a store of three entries, one of them a
location entry of `dev1` with the value `kitchen`. -/
theorem location_for_source_witness :
    readAllEntries rfc3339 sampleStore = Except.ok sampleEntries ∧
    GetLocationForSource rfc3339 sampleStore "dev1" = ("kitchen", true) ∧
    (((∀ e ∈ sampleEntries, ¬ Declares "dev1" e) ↔
        GetLocationForSource rfc3339 sampleStore "dev1" = ("", false)) ∧
      ((∃ e ∈ sampleEntries, Declares "dev1" e) →
        ∃ pre m post, sampleEntries = pre ++ m :: post ∧ Declares "dev1" m ∧
          (∀ c ∈ pre, Declares "dev1" c → ¬ c.CreatedAt.After m.CreatedAt = true) ∧
          (∀ c ∈ post, Declares "dev1" c → m.CreatedAt.After c.CreatedAt = true) ∧
          GetLocationForSource rfc3339 sampleStore "dev1" = (m.Value, true)) ∧
      (∀ d' entries', readAllEntries rfc3339 d' = Except.ok entries' →
        entries'.map (fun e => { e with Datetime := Time.zero }) =
          sampleEntries.map (fun e => { e with Datetime := Time.zero }) →
        GetLocationForSource rfc3339 d' "dev1" =
          GetLocationForSource rfc3339 sampleStore "dev1")) :=
  ⟨by rfl, by rfl, location_for_source rfc3339 sampleStore "dev1" sampleEntries (by rfl)⟩

/-! ## C7: the schema of the file -/

/-- C7: when the header row of the file at the store path cannot be read, has
fewer than 8 columns, or has a 7th column other than `location`, `NewLogger`
leaves a file that holds the header row of the current schema and nothing else:
read back it is that one row and no entry, whatever the old file contained.
When the header row has at least 8 columns with `location` as the 7th, in
particular when it is the header of the current schema, the file is left as it
was. -/
theorem initFile_migration (tl : TimeLib) (content : List Char) :
    (((∃ e, csvRead content = Except.error e) ∨
        (∃ hs, csvRead content = Except.ok hs ∧
          (hs.length < 8 ∨ (7 ≤ hs.length ∧ hs.getD 6 "" ≠ "location")))) →
      NewLogger (some content) = some (csvWrite headers)) ∧
    (∀ hs, csvRead content = Except.ok hs → 8 ≤ hs.length → hs.getD 6 "" = "location" →
      NewLogger (some content) = some content) ∧
    (csvRead content = Except.ok headers → NewLogger (some content) = some content) ∧
    String.mk (csvWrite headers) =
      "id,transaction,datetime,name,value,source,location,created_at\n" ∧
    csvReadAll (csvWrite headers) = Except.ok [headers] ∧
    readAllEntries tl (some (csvWrite headers)) = Except.ok [] := by
  have hgood : ∀ hs, csvRead content = Except.ok hs → 8 ≤ hs.length →
      hs.getD 6 "" = "location" → NewLogger (some content) = some content := by
    intro hs h1 h2 h3
    simp only [NewLogger, initFile, h1]
    rw [if_neg]
    intro hc
    simp only [Bool.or_eq_true, Bool.and_eq_true, decide_eq_true_eq, bne_iff_ne, ne_eq] at hc
    rcases hc with hc | ⟨_, hc⟩
    · omega
    · exact hc h3
  refine ⟨?_, hgood, ?_, by rfl, csvReadAll_headers, ?_⟩
  · rintro (⟨e, he⟩ | ⟨hs, hhs, hbad⟩)
    · simp [NewLogger, initFile, he, createNewFile]
    · simp only [NewLogger, initFile, hhs]
      rw [if_pos]
      · rfl
      · simp only [Bool.or_eq_true, Bool.and_eq_true, decide_eq_true_eq, bne_iff_ne, ne_eq]
        rcases hbad with h | ⟨h7, h⟩
        · exact Or.inl h
        · exact Or.inr ⟨h7, h⟩
  · intro h
    exact hgood headers h (by decide) (by rfl)
  · simp [readAllEntries, csvReadAll_headers, entriesOfRecords]

set_option maxRecDepth 1000000 in
/-- C7, an instance: a file of the old 7-column schema with two rows becomes
the header row of the current schema. -/
theorem initFile_migration_witness :
    csvRead oldFormatStore = Except.ok
      ["id", "transaction", "datetime", "name", "value", "source", "created_at"] ∧
    NewLogger (some oldFormatStore) = some (csvWrite headers) :=
  ⟨by rfl, (initFile_migration rfc3339 oldFormatStore).1
    (Or.inr ⟨_, by rfl, Or.inl (by decide)⟩)⟩

/-! ## C8: statistics -/

theorem mem_insertKey (keys : List String) (k x : String) :
    x ∈ insertKey keys k ↔ x ∈ keys ∨ x = k := by
  unfold insertKey
  split
  · rename_i h
    constructor
    · exact Or.inl
    · rintro (h1 | h1)
      · exact h1
      · rw [h1]; exact h
  · simp

theorem nodup_insertKey (keys : List String) (k : String) (h : keys.Nodup) :
    (insertKey keys k).Nodup := by
  unfold insertKey
  split
  · exact h
  · rename_i hk
    rw [List.nodup_append]
    exact ⟨h, List.nodup_singleton k, by
      intro a ha hb
      rw [List.mem_singleton] at hb
      subst hb
      exact hk ha⟩

theorem foldl_insertKey (l keys : List String) (h : keys.Nodup) :
    (l.foldl insertKey keys).Nodup ∧
      ∀ x, x ∈ l.foldl insertKey keys ↔ x ∈ keys ∨ x ∈ l := by
  induction l generalizing keys with
  | nil => simp [h]
  | cons k rest ih =>
    obtain ⟨h1, h2⟩ := ih (insertKey keys k) (nodup_insertKey keys k h)
    refine ⟨h1, fun x => ?_⟩
    rw [List.foldl_cons, h2, mem_insertKey, List.mem_cons]
    tauto

/-- The keys of the map `GetStats` fills from one field of the entries: every
value of the field, once. -/
theorem keys_of_field (entries : List LogEntry) (f : LogEntry → String) :
    (entries.foldl (fun m e => insertKey m (f e)) []).Nodup ∧
      (∀ x, x ∈ entries.foldl (fun m e => insertKey m (f e)) [] ↔ ∃ e ∈ entries, f e = x) ∧
      (entries.foldl (fun m e => insertKey m (f e)) []).length =
        (entries.map f).toFinset.card := by
  have e : entries.foldl (fun m e => insertKey m (f e)) [] = (entries.map f).foldl insertKey [] := by
    rw [List.foldl_map]
  obtain ⟨h1, h2⟩ := foldl_insertKey (entries.map f) [] List.nodup_nil
  rw [e]
  refine ⟨h1, fun x => ?_, ?_⟩
  · rw [h2]; simp
  · rw [← List.toFinset_card_of_nodup h1]
    congr 1
    ext x
    simp only [List.mem_toFinset, h2, List.not_mem_nil, false_or]

/-- C8: on a readable store `GetStats` returns `total_entries` equal to the number
of stored entries, `sources` holding exactly the Source values that occur among
the entries and none of them twice (likewise `names` for Name), and
`unique_sources` and `unique_names` equal to the numbers of distinct Source and
Name values; a second call on the same store, whatever the order in which its
loops range over the maps, returns the same three counts and the same two
sets. -/
theorem stats_counts (tl : TimeLib) (so no so' no' : RangeOrder) (d : Disk)
    (entries : List LogEntry) (h : readAllEntries tl d = Except.ok entries) :
    ∃ st st', GetStats tl so no d = Except.ok st ∧ GetStats tl so' no' d = Except.ok st' ∧
      st.total_entries = entries.length ∧
      (∀ s, s ∈ st.sources ↔ ∃ e ∈ entries, e.Source = s) ∧ st.sources.Nodup ∧
      (∀ n, n ∈ st.names ↔ ∃ e ∈ entries, e.Name = n) ∧ st.names.Nodup ∧
      st.unique_sources = (entries.map (fun e => e.Source)).toFinset.card ∧
      st.unique_names = (entries.map (fun e => e.Name)).toFinset.card ∧
      st'.total_entries = st.total_entries ∧
      st'.unique_sources = st.unique_sources ∧
      st'.unique_names = st.unique_names ∧
      (∀ s, s ∈ st'.sources ↔ s ∈ st.sources) ∧
      (∀ n, n ∈ st'.names ↔ n ∈ st.names) := by
  obtain ⟨hs1, hs2, hs3⟩ := keys_of_field entries (fun e => e.Source)
  obtain ⟨hn1, hn2, hn3⟩ := keys_of_field entries (fun e => e.Name)
  refine ⟨statsOf so no entries, statsOf so' no' entries, by simp [GetStats, h],
    by simp [GetStats, h], rfl, ?_, ?_, ?_, ?_, ?_, ?_, rfl, ?_, ?_, ?_, ?_⟩
  · intro s
    simp only [statsOf, (so.perm _).mem_iff, hs2]
  · simp only [statsOf]
    exact (so.perm _).nodup_iff.2 hs1
  · intro n
    simp only [statsOf, (no.perm _).mem_iff, hn2]
  · simp only [statsOf]
    exact (no.perm _).nodup_iff.2 hn1
  · simp only [statsOf, (so.perm _).length_eq, hs3]
  · simp only [statsOf, (no.perm _).length_eq, hn3]
  · simp only [statsOf, (so.perm _).length_eq, (so'.perm _).length_eq]
  · simp only [statsOf, (no.perm _).length_eq, (no'.perm _).length_eq]
  · intro s
    simp only [statsOf, (so.perm _).mem_iff, (so'.perm _).mem_iff]
  · intro n
    simp only [statsOf, (no.perm _).mem_iff, (no'.perm _).mem_iff]

set_option maxRecDepth 1000000 in
/-- C8, witness: two calls on a store of three entries, the second ranging over
the maps in the reverse order. -/
theorem stats_counts_witness :
    GetStats rfc3339 RangeOrder.insertion RangeOrder.insertion sampleStore =
        Except.ok ⟨3, 2, 2, ["dev1", "dev2"], ["location", "temp"]⟩ ∧
      GetStats rfc3339 RangeOrder.reversed RangeOrder.reversed sampleStore =
        Except.ok ⟨3, 2, 2, ["dev2", "dev1"], ["temp", "location"]⟩ ∧
      ∃ st st', GetStats rfc3339 RangeOrder.insertion RangeOrder.insertion sampleStore =
          Except.ok st ∧
        GetStats rfc3339 RangeOrder.reversed RangeOrder.reversed sampleStore = Except.ok st' ∧
        st.total_entries = sampleEntries.length ∧
        (∀ s, s ∈ st.sources ↔ ∃ e ∈ sampleEntries, e.Source = s) ∧ st.sources.Nodup ∧
        (∀ n, n ∈ st.names ↔ ∃ e ∈ sampleEntries, e.Name = n) ∧ st.names.Nodup ∧
        st.unique_sources = (sampleEntries.map (fun e => e.Source)).toFinset.card ∧
        st.unique_names = (sampleEntries.map (fun e => e.Name)).toFinset.card ∧
        st'.total_entries = st.total_entries ∧
        st'.unique_sources = st.unique_sources ∧
        st'.unique_names = st.unique_names ∧
        (∀ s, s ∈ st'.sources ↔ s ∈ st.sources) ∧
        (∀ n, n ∈ st'.names ↔ n ∈ st.names) :=
  ⟨by rfl, by rfl, stats_counts rfc3339 RangeOrder.insertion RangeOrder.insertion
    RangeOrder.reversed RangeOrder.reversed sampleStore sampleEntries (by rfl)⟩

/-! ## C9: append only -/

/-- C9 (as amended): on a store whose file is readable, has an 8-column header
and ends in a newline, `AddEntry` succeeds, only adds characters at the end of
the file, and what is read afterwards is every entry read before, unchanged and
in the same order, followed by exactly one new entry, which has the id
returned.  `ClearEntries` leaves the header row and no entry on every store.
`GetEntries`, `GetStats` and `GetLocationForSource` leave the file, and so the
stored entries, as they were. -/
theorem append_only (tl : TimeLib) (now : Time) (d : Disk) (datetime : Time)
    (transaction name value source location : String) (hwf : wellFormed d = true) :
    (∃ entries id d1 content row e, readAllEntries tl d = Except.ok entries ∧
      AddEntry tl now d datetime transaction name value source location = Except.ok (id, d1) ∧
      d = some content ∧ d1 = some (content ++ row) ∧
      readAllEntries tl d1 = Except.ok (entries ++ [e]) ∧ e.ID = id) ∧
    (∀ d0, ClearEntries d0 = some (csvWrite headers) ∧
      csvReadAll (csvWrite headers) = Except.ok [headers] ∧
      readAllEntries tl (ClearEntries d0) = Except.ok []) ∧
    (∀ d0 call, Call.readOnly call = true → Call.diskAfter tl d0 call = d0 ∧
      readAllEntries tl (Call.diskAfter tl d0 call) = readAllEntries tl d0) := by
  refine ⟨?_, ?_, ?_⟩
  · obtain ⟨entries, d1, hread, hadd, _, hread1⟩ :=
      AddEntry_wellFormed tl now d datetime transaction name value source location hwf
    obtain ⟨content, _, hd, _, _, hd1⟩ := AddEntry_ok _ _ _ _ _ _ _ _ _ _ _ hadd
    exact ⟨entries, _, d1, content, _, _, hread, hadd, hd, hd1, hread1, rfl⟩
  · intro d0
    exact ⟨rfl, csvReadAll_headers, readAllEntries_ClearEntries tl d0⟩
  · intro d0 call hr
    cases call <;> simp [Call.readOnly] at hr <;> exact ⟨rfl, rfl⟩

set_option maxRecDepth 1000000 in
/-- C9, witness: an entry added to a new store. -/
theorem append_only_witness :
    wellFormed (NewLogger none) = true ∧
      ∃ entries id d1 content row e,
        readAllEntries rfc3339 (NewLogger none) = Except.ok entries ∧
        AddEntry rfc3339 ⟨1704067200, 0, 0⟩ (NewLogger none) ⟨1704067100, 0, 0⟩
          "measurement" "temp" "21.5" "dev1" "" = Except.ok (id, d1) ∧
        NewLogger none = some content ∧ d1 = some (content ++ row) ∧
        readAllEntries rfc3339 d1 = Except.ok (entries ++ [e]) ∧ e.ID = id :=
  ⟨by decide, (append_only rfc3339 ⟨1704067200, 0, 0⟩ (NewLogger none) ⟨1704067100, 0, 0⟩
    "measurement" "temp" "21.5" "dev1" "" (by decide)).1⟩

set_option maxRecDepth 1000000 in
/-- C9, counterexample: a file that is the current header row without a newline
after it is an initialised store with no entries; `AddEntry` succeeds on it and
returns 1, and afterwards the store still has no entries: the row written
stands on the header line. -/
theorem append_adds_no_entry :
    NewLogger (some unterminatedStore) = some unterminatedStore ∧
      readAllEntries rfc3339 (some unterminatedStore) = Except.ok [] ∧
      ∃ d1, AddEntry rfc3339 ⟨1704067200, 0, 0⟩ (some unterminatedStore) ⟨1704067100, 0, 0⟩
          "measurement" "temp" "21.5" "dev1" "" = Except.ok (1, d1) ∧
        d1.map String.mk = some ("id,transaction,datetime,name,value,source,location," ++
          "created_at1,measurement,2023-12-31T23:58:20Z,temp,21.5,dev1,,2024-01-01T00:00:00Z\n") ∧
        readAllEntries rfc3339 d1 = Except.ok [] := by
  exact ⟨by rfl, by rfl, _, by rfl, by rfl, by rfl⟩

/-! ## C10: the next id -/

/-- C10 (as amended): on every readable store, also one this program did not
write, a successful `AddEntry` returns 1 when no entry is read, and, provided no
entry read has the largest `int` as its id, 1 plus the greatest of 0 and the
ids of the entries read; that id is positive and strictly greater than the id of
every entry read. -/
theorem next_id (tl : TimeLib) (now : Time) (d : Disk) (datetime : Time)
    (transaction name value source location : String) (id : Int) (d1 : Disk)
    (hadd : AddEntry tl now d datetime transaction name value source location =
      Except.ok (id, d1)) :
    ∃ entries, readAllEntries tl d = Except.ok entries ∧
      (entries = [] → id = 1) ∧
      ((∀ e ∈ entries, e.ID ≠ maxInt) →
        (∃ m, id = 1 + m ∧ 0 ≤ m ∧ (∀ e ∈ entries, e.ID ≤ m) ∧
          (m = 0 ∨ ∃ e ∈ entries, e.ID = m)) ∧
        0 < id ∧ ∀ e ∈ entries, e.ID < id) := by
  obtain ⟨content, entries, _, hread, hid, _⟩ := AddEntry_ok _ _ _ _ _ _ _ _ _ _ _ hadd
  refine ⟨entries, hread, ?_, ?_⟩
  · intro h
    rw [hid, h]; rfl
  · intro hne
    have hrange := readAllEntries_ID_range tl d entries hread
    have h0 := maxID_nonneg entries
    have hle : ∀ e ∈ entries, e.ID ≤ maxID entries := le_maxID entries
    have hmem : maxID entries = 0 ∨ ∃ e ∈ entries, e.ID = maxID entries :=
      maxID_foldl_mem entries 0
    have hlt : maxID entries < maxInt := by
      rcases hmem with hz | ⟨e, he, heq⟩
      · rw [hz]; decide
      · rw [← heq]
        exact lt_of_le_of_ne (hrange e he).2 (hne e he)
    have hnext : nextID entries = 1 + maxID entries := by
      unfold nextID
      split
      · rw [wrapInt_eq _ (by simp only [minInt]; omega) (by omega)]; omega
      · rename_i hlen
        have : entries = [] := List.eq_nil_of_length_eq_zero (by omega)
        rw [this]; rfl
    rw [hid, hnext]
    refine ⟨⟨maxID entries, rfl, h0, hle, hmem⟩, by omega, fun e he => ?_⟩
    have := hle e he
    omega

set_option maxRecDepth 1000000 in
/-- C10, witness: an entry added to a store of three entries gets the id 4. -/
theorem next_id_witness :
    ∃ d1, AddEntry rfc3339 ⟨1704067200, 0, 0⟩ sampleStore ⟨1704067100, 0, 0⟩
        "measurement" "temp" "21.5" "dev1" "" = Except.ok (4, d1) ∧
      ∃ entries, readAllEntries rfc3339 sampleStore = Except.ok entries ∧
        (entries = [] → (4 : Int) = 1) ∧
        ((∀ e ∈ entries, e.ID ≠ maxInt) →
          (∃ m, (4 : Int) = 1 + m ∧ 0 ≤ m ∧ (∀ e ∈ entries, e.ID ≤ m) ∧
            (m = 0 ∨ ∃ e ∈ entries, e.ID = m)) ∧
          (0 : Int) < 4 ∧ ∀ e ∈ entries, e.ID < 4) :=
  ⟨_, by rfl, next_id rfc3339 ⟨1704067200, 0, 0⟩ sampleStore ⟨1704067100, 0, 0⟩
    "measurement" "temp" "21.5" "dev1" "" 4 _ (by rfl)⟩

set_option maxRecDepth 1000000 in
/-- C10, counterexample: on a readable store whose one entry has the id -5,
`AddEntry` returns 1, which is not 1 plus the maximum id among the entries
read, -4. -/
theorem next_id_not_max_plus_one :
    (readAllEntries rfc3339 negativeIdStore).map (fun es => es.map (fun e => e.ID)) =
        Except.ok [-5] ∧
      ∃ d1, AddEntry rfc3339 ⟨1704067200, 0, 0⟩ negativeIdStore ⟨1704067100, 0, 0⟩
          "measurement" "temp" "21.5" "dev1" "" = Except.ok (1, d1) ∧
        (1 : Int) ≠ 1 + (-5) := by
  exact ⟨by rfl, _, by rfl, by decide⟩

/-! ## The number of fields of the records read -/

theorem endRecord_uniform (s : Reader) (h : s.Uniform) : s.endRecord.Uniform := by
  unfold Reader.endRecord
  split
  · intro first rest he r hr
    simp only [List.cons.injEq] at he
    rw [← he.2] at hr
    simp at hr
  · rename_i first rest hrec
    simp only
    split
    · rename_i hlen
      intro f t he r hr
      rw [hrec] at he
      simp only [List.cons_append, List.cons.injEq] at he
      obtain ⟨rfl, rfl⟩ := he
      rcases List.mem_append.1 hr with hr | hr
      · exact h _ _ hrec r hr
      · simp only [List.mem_singleton] at hr
        rw [hr]; exact hlen
    · exact h

theorem step_records (s : Reader) (c : Char) :
    (s.step c).records = s.records ∨ s.step c = s.endRecord := by
  unfold Reader.step
  split
  · exact Or.inl rfl
  · split <;> split_ifs <;> simp [Reader.fail, Reader.push, Reader.endField]

theorem step_uniform (s : Reader) (c : Char) (h : s.Uniform) : (s.step c).Uniform := by
  rcases step_records s c with e | e
  · intro first rest he
    rw [e] at he
    exact h first rest he
  · rw [e]; exact endRecord_uniform s h

theorem feed_uniform (s : Reader) (l : List Char) (h : s.Uniform) : (s.feed l).Uniform := by
  induction l generalizing s with
  | nil => exact h
  | cons c l ih => exact ih _ (step_uniform s c h)

theorem finish_records (s : Reader) :
    s.finish.records = s.records ∨ s.finish = s.endRecord := by
  unfold Reader.finish
  split
  · exact Or.inl rfl
  · split <;> (try split_ifs) <;> simp [Reader.fail]

theorem finish_uniform (s : Reader) (h : s.Uniform) : s.finish.Uniform := by
  rcases finish_records s with e | e
  · intro first rest he
    rw [e] at he
    exact h first rest he
  · rw [e]; exact endRecord_uniform s h

/-- With `FieldsPerRecord = 0`, every record `ReadAll` returns has as many fields
as the first one. -/
theorem csvReadAll_uniform (input : List Char) (hdr : List String) (rows : List (List String))
    (h : csvReadAll input = Except.ok (hdr :: rows)) : ∀ r ∈ rows, r.length = hdr.length := by
  rw [csvReadAll_ok_iff, run_eq] at h
  have hu : (Reader.init.feed (normalizeLines input)).finish.Uniform :=
    finish_uniform _ (feed_uniform _ _ (by intro f t he; simp [Reader.init] at he))
  exact hu hdr rows h.2

/-! ## What `strconv.Atoi` returns beside an error -/

theorem atoiFast_error (s : List Char) (h : (atoiFast s).2 = false) : (atoiFast s).1 = 0 := by
  cases s with
  | nil => rfl
  | cons c rest =>
    simp only [atoiFast] at h ⊢
    split_ifs at h ⊢ <;> simp_all

theorem parseInt_error (s : List Char) (h : (parseInt s).2 = false) :
    (parseInt s).1 = 0 ∨ (parseInt s).1 = maxInt ∨ (parseInt s).1 = minInt := by
  cases s with
  | nil => exact Or.inl rfl
  | cons c rest =>
    simp only [parseInt] at h ⊢
    generalize parseUint (if isSign c = true then rest else c :: rest) = u at h ⊢
    cases u with
    | syntaxError => exact Or.inl rfl
    | rangeError => dsimp only; split_ifs <;> simp
    | value un => dsimp only at h ⊢; split_ifs at h ⊢ <;> simp_all

/-- The value `strconv.Atoi` returns beside an error: 0, or, for a text of 19
bytes or more, possibly the largest or the smallest `int`. -/
theorem Atoi_error (s : String) (h : (Atoi s).2 = false) :
    (Atoi s).1 = 0 ∨ (19 ≤ s.utf8ByteSize ∧ ((Atoi s).1 = maxInt ∨ (Atoi s).1 = minInt)) := by
  unfold Atoi at h ⊢
  split_ifs at h ⊢ with hsize
  · exact Or.inl (atoiFast_error _ h)
  · by_cases h0 : s.utf8ByteSize = 0
    · have hlen := length_le_utf8ByteSize s
      have hnil : s.data = [] := List.eq_nil_of_length_eq_zero (by omega)
      rw [hnil]; exact Or.inl rfl
    · rcases parseInt_error _ h with e | e
      · exact Or.inl e
      · exact Or.inr ⟨by omega, e⟩

/-! ## C11: the rows read -/

theorem entriesOfRecords_full (tl : TimeLib) (hdr : List String) (rows : List (List String))
    (h : ∀ r ∈ rows, 8 ≤ r.length) :
    entriesOfRecords tl (hdr :: rows) = rows.map (entryOfRecord tl) := by
  simp only [entriesOfRecords, List.drop_succ_cons, List.drop_zero]
  induction rows with
  | nil => rfl
  | cons r rows ih =>
    have hr : ¬ r.length < 8 := by have := h r (List.mem_cons_self _ _); omega
    simp only [List.filterMap_cons, hr, if_false, List.map_cons]
    rw [ih (fun x hx => h x (List.mem_cons_of_mem _ hx))]

theorem eq_of_length_eight (r : List String) (h : r.length = 8) :
    ∃ a b c d e f g k, r = [a, b, c, d, e, f, g, k] := by
  match r, h with
  | [a, b, c, d, e, f, g, k], _ => exact ⟨a, b, c, d, e, f, g, k, rfl⟩

/-- C11 (as amended): for every store file that `csv.Reader.ReadAll` reads
without an error and whose header row has 8 columns, `readAllEntries` succeeds
and returns, in file order, exactly one entry for each row after the header,
and each such row has 8 fields.  The `ID` of the entry is what `strconv.Atoi`
returns for the first field: where `Atoi` returns an error that is 0, or, for a
text of 19 bytes or more, possibly the largest or the smallest `int`.  A
`datetime` or `created_at` that does not parse gives the zero time, and the
other fields are the fields of the row. -/
theorem readAllEntries_rows (tl : TimeLib) (content : List Char) (hdr : List String)
    (rows : List (List String))
    (hread : csvReadAll content = Except.ok (hdr :: rows)) (hhdr : hdr.length = 8) :
    ∃ entries, readAllEntries tl (some content) = Except.ok entries ∧
      entries.length = rows.length ∧
      ∀ (i : Nat) (row : List String) (e : LogEntry), rows[i]? = some row → entries[i]? = some e →
        ∃ id transaction datetime name value source location createdAt,
          row = [id, transaction, datetime, name, value, source, location, createdAt] ∧
          e.ID = (Atoi id).1 ∧
          ((Atoi id).2 = false →
            e.ID = 0 ∨ (19 ≤ id.utf8ByteSize ∧ (e.ID = maxInt ∨ e.ID = minInt))) ∧
          e.Transaction = transaction ∧ e.Name = name ∧ e.Value = value ∧
          e.Source = source ∧ e.Location = location ∧
          (∀ t, tl.parse datetime = some t → e.Datetime = t) ∧
          (tl.parse datetime = none → e.Datetime = Time.zero) ∧
          (∀ t, tl.parse createdAt = some t → e.CreatedAt = t) ∧
          (tl.parse createdAt = none → e.CreatedAt = Time.zero) := by
  have hlen : ∀ r ∈ rows, r.length = 8 := fun r hr =>
    (csvReadAll_uniform content hdr rows hread r hr).trans hhdr
  have hent : entriesOfRecords tl (hdr :: rows) = rows.map (entryOfRecord tl) :=
    entriesOfRecords_full tl hdr rows (fun r hr => (hlen r hr).ge)
  refine ⟨rows.map (entryOfRecord tl), ?_, List.length_map _ _, ?_⟩
  · rw [readAllEntries_some tl content _ hread, hent]
  · intro i row e hrow he
    rw [List.getElem?_map, hrow] at he
    simp only [Option.map_some', Option.some.injEq] at he
    subst he
    obtain ⟨a, b, c, d, f, g, k, m, rfl⟩ :=
      eq_of_length_eight row (hlen row (List.getElem?_mem hrow))
    refine ⟨a, b, c, d, f, g, k, m, rfl, rfl, ?_, rfl, rfl, rfl, rfl, rfl, ?_, ?_, ?_, ?_⟩
    · exact Atoi_error a
    · intro t ht
      simp [entryOfRecord, ht]
    · intro ht
      simp [entryOfRecord, ht]
    · intro t ht
      simp [entryOfRecord, ht]
    · intro ht
      simp [entryOfRecord, ht]

set_option maxRecDepth 1000000 in
/-- C11, witness: a file of three rows, the first with an id and a datetime that
do not parse, the last with an id below the smallest `int` and an empty
`created_at`. -/
theorem readAllEntries_rows_witness :
    csvReadAll oddRowsStore = Except.ok (headers :: oddRows) ∧ headers.length = 8 ∧
      readAllEntries rfc3339 (some oddRowsStore) = Except.ok
        [{ ID := 0, Transaction := "measurement", Datetime := Time.zero, Name := "temp",
           Value := "20", Source := "dev1", Location := "hall",
           CreatedAt := ⟨1704067205, 0, 0⟩ },
         { ID := 2, Transaction := "measurement", Datetime := ⟨1704067260, 0, 0⟩,
           Name := "temp", Value := "21", Source := "dev1", Location := "",
           CreatedAt := ⟨1704067265, 0, 0⟩ },
         { ID := minInt, Transaction := "note", Datetime := ⟨1704067320, 0, 0⟩,
           Name := "memo", Value := "a,b", Source := "dev2", Location := "",
           CreatedAt := Time.zero }] ∧
      ∃ entries, readAllEntries rfc3339 (some oddRowsStore) = Except.ok entries ∧
        entries.length = oddRows.length ∧
        ∀ (i : Nat) (row : List String) (e : LogEntry),
          oddRows[i]? = some row → entries[i]? = some e →
          ∃ id transaction datetime name value source location createdAt,
            row = [id, transaction, datetime, name, value, source, location, createdAt] ∧
            e.ID = (Atoi id).1 ∧
            ((Atoi id).2 = false →
              e.ID = 0 ∨ (19 ≤ id.utf8ByteSize ∧ (e.ID = maxInt ∨ e.ID = minInt))) ∧
            e.Transaction = transaction ∧ e.Name = name ∧ e.Value = value ∧
            e.Source = source ∧ e.Location = location ∧
            (∀ t, rfc3339.parse datetime = some t → e.Datetime = t) ∧
            (rfc3339.parse datetime = none → e.Datetime = Time.zero) ∧
            (∀ t, rfc3339.parse createdAt = some t → e.CreatedAt = t) ∧
            (rfc3339.parse createdAt = none → e.CreatedAt = Time.zero) :=
  ⟨by rfl, by rfl, by rfl,
    readAllEntries_rows rfc3339 oddRowsStore headers oddRows (by rfl) (by rfl)⟩

set_option maxRecDepth 1000000 in
/-- C11, counterexample: a file with the current header and a row that holds a
quote inside an unquoted field is not read, `readAllEntries` returns the error
of the CSV reader; and a row whose id is one more than the largest `int`, which
`strconv.Atoi` rejects, is returned with the largest `int` as its `ID`, not
0. -/
theorem readAllEntries_error_and_bound :
    csvRead bareQuoteStore = Except.ok headers ∧
      readAllEntries rfc3339 (some bareQuoteStore) = Except.error (Err.csv CsvError.bareQuote) ∧
      csvRead bigIdStore = Except.ok headers ∧
      Atoi "9223372036854775808" = (maxInt, false) ∧
      (readAllEntries rfc3339 (some bigIdStore)).map (fun es => es.map (fun e => e.ID)) =
        Except.ok [maxInt] ∧
      maxInt ≠ 0 := by
  exact ⟨by rfl, by rfl, by rfl, by rfl, by rfl, by decide⟩

set_option maxRecDepth 1000000 in
/-- A file with the current header, a row of 7 fields and a row of 8 fields:
the CSV reader, whose first record fixes the number of fields, stops at the
short row, and `readAllEntries` returns its error and no entry. -/
theorem readAllEntries_short_row :
    csvRead shortRowStore = Except.ok headers ∧
      readAllEntries rfc3339 (some shortRowStore) = Except.error (Err.csv CsvError.fieldCount) := by
  exact ⟨by rfl, by rfl⟩

end GoLogger
